import Mathlib

/-
  Verification development for the SeoulEngine Animation2D runtime
  (Spine-compatible 2D skeletal animation core).

  The definitions below are a shallow embedding of the C++ sources:
    Animation2DClipInstance.cpp   (clip evaluators, event range dispatch)
    Animation2DDataInstance.cpp   (ApplyCache, pose solver, IK)
    Animation2DCache.h            (frame cache accumulators)
    Animation2DDataDefinition.cpp (finalization)
  Float32 arithmetic is modelled with rationals; machine trig and other
  real functions are modelled as explicit function parameters.
-/

namespace Anim2D

/-- Linear interpolation, `Lerp(a, b, t) = a + (b - a) * t` (SeoulMath). -/
def lerp (a b t : ℚ) : ℚ := a + (b - a) * t

/-- Booleans viewed as the floats 0 / 1 (used by `LerpBoolean` and `FloatToBool`). -/
def boolToQ (b : Bool) : ℚ := if b then 1 else 0

/-
  ===========================================================================
  Draw order (C1).
  Embeds `DrawOrderEvaluator::Evaluate` from Animation2DClipInstance.cpp
  lines 63-160 and the draw-order commit of `DataInstance::ApplyCache`
  (Animation2DDataInstance.cpp lines 146-156), plus `SetDefaultDrawOrder`
  from Animation2DCache.h lines 190-194.
  ===========================================================================
-/

/-- `SetDefaultDrawOrder(uSlots, rv)`: identity order `[0 .. uSlots)`. -/
def setDefaultDrawOrder (n : Nat) : List Int :=
  (List.range n).map (fun (i : Nat) => (i : Int))

/-- The offsets-marking loop of `DrawOrderEvaluator::Evaluate` (lines 94-102):
for each `(slot, offset)`, `drawOrder[slot + offset] = slot` and
`scratch[slot] = -1`. Offsets carry the already-resolved slot index
(`GetSlotIndex` result) and the keyframe offset. -/
def markOffsets : List (Int × Int) → List Int → List Int → List Int × List Int
  | [], dro, scratch => (dro, scratch)
  | (s, off) :: rest, dro, scratch =>
      markOffsets rest (dro.set (s + off).toNat s) (scratch.set s.toNat (-1))

/-- The inner `while` of the fill sweep (lines 112-118): keep decrementing
`iOutSlot` past cleared scratch cells, restoring each cleared cell to its
sequential value. Fuel-based recursion; the wrapper `restoreStep` supplies
sufficient fuel. -/
def restoreSkip : List Int → Int → Nat → List Int × Int
  | scratch, j, 0 => (scratch, j)
  | scratch, j, Nat.succ fuel =>
      if 0 ≤ j ∧ scratch.getD j.toNat 0 < 0 then
        restoreSkip (scratch.set j.toNat j) (j - 1) fuel
      else (scratch, j)

/-- Wrapper that supplies enough fuel for `restoreSkip` to run to completion. -/
def restoreStep (scratch : List Int) (j : Int) : List Int × Int :=
  restoreSkip scratch j (j + 1).toNat

/-- The high-to-low fill sweep of `DrawOrderEvaluator::Evaluate`
(lines 107-133), processing cells in the given order (`iDraws - 1` down
to `0`). Already-assigned cells (`drawOrder[i] >= 0`) are skipped;
unresolved cells receive the current `iOutSlot`. -/
def sweepLoop : List Nat → List Int → List Int → Int → List Int × List Int × Int
  | [], dro, scratch, j => (dro, scratch, j)
  | c :: cs, dro, scratch, j =>
      match restoreStep scratch j with
      | (scratch1, j1) =>
        if 0 ≤ dro.getD c 0 then
          sweepLoop cs dro scratch1 j1
        else
          sweepLoop cs (dro.set c j1) scratch1 (j1 - 1)

/-- `DrawOrderEvaluator::Evaluate` applied to the offsets of the active
keyframe: with an empty offset list the cache draw order is left untouched
(lines 83); otherwise the permutation is constructed into the cache
(lines 85-133). The final scratch-restoring `while` (lines 135-141) only
rewrites the scratch buffer, which is fully re-initialized on the next
evaluation (line 86), so only the draw-order output is kept here. -/
def drawOrderEvaluate (n : Nat) (offsets : List (Int × Int)) (prevCache : List Int) : List Int :=
  if offsets = [] then prevCache
  else
    match markOffsets offsets (List.replicate n (-1 : Int)) (setDefaultDrawOrder n) with
    | (dro, scratch) =>
      match sweepLoop (List.range n).reverse dro scratch ((n : Int) - 1) with
      | (dro1, _, _) => dro1

/-- The draw-order commit of `DataInstance::ApplyCache` (lines 146-156):
an empty cache draw order commits the identity, otherwise the cache
contents are copied. -/
def commitDrawOrder (n : Nat) (cached : List Int) : List Int :=
  if cached = [] then setDefaultDrawOrder n else cached

/-- The set of source indices still available to the fill sweep: unmarked
scratch cells at positions at most `j`. Proof-side bookkeeping for the
sweep invariant. -/
def availSet (sc1 : List Int) (n : Nat) (j : Int) : Finset Nat :=
  (Finset.range n).filter (fun s => (s : Int) ≤ j ∧ 0 ≤ sc1.getD s 0)

/-
  ===========================================================================
  Event timeline (C2).
  Embeds `EventEvaluator::EvaluateRange` and `EventEvaluator::GetNextEventTime`
  from Animation2DClipInstance.cpp lines 180-260.
  ===========================================================================
-/

/-- One keyframe of the event timeline (`KeyFrameEvent`): time, event id and
the integer / float / string payload passed to `DispatchEvent`. -/
structure EventKF where
  time : ℚ
  id : String
  iPayload : Int
  fPayload : ℚ
  sPayload : String
deriving DecidableEq

/-- `EventEvaluator::EvaluateRange(r, fStartTime, fEndTime, fAlpha)`
(lines 209-260), returning the list of dispatched events in order.
Below the mix threshold nothing is dispatched. The scan skips keys with
`time <= fStartTime` (open lower bound) unless
`fStartTime == 0 && front.time == 0`, then dispatches keys while
`time <= fEndTime` (closed upper bound). -/
def eventEvaluateRange (events : List EventKF) (threshold : ℚ)
    (startTime endTime alpha : ℚ) : List EventKF :=
  if alpha < threshold then []
  else
    (if startTime ≠ 0 ∨ events.head?.map EventKF.time ≠ some 0 then
        events.dropWhile (fun e => decide (e.time ≤ startTime))
      else events).takeWhile (fun e => decide (e.time ≤ endTime))

/-- `EventEvaluator::GetNextEventTime` (lines 180-207): skip keys with
`time <= fStartTime`, then return the time of the first key whose id
matches. -/
def eventGetNextEventTime (events : List EventKF) (name : String)
    (startTime : ℚ) : Option ℚ :=
  ((events.dropWhile (fun e => decide (e.time ≤ startTime))).find?
      (fun e => decide (e.id = name))).map EventKF.time

/-
  ===========================================================================
  Slot attachments (C3).
  Embeds `SlotAttachmentEvaluator::Evaluate` (Animation2DClipInstance.cpp
  lines 816-834), `Cache::SlotAttachmentEntry` / `AccumSlotAttachment`
  (Animation2DCache.h lines 48-67, 125-128) and the attachment commit of
  `DataInstance::ApplyCache` (Animation2DDataInstance.cpp lines 158-203).
  ===========================================================================
-/

/-- `Cache::SlotAttachmentEntry`: weight, attachment id, slot index. -/
structure SlotAttachmentEntry where
  alpha : ℚ
  attachmentId : String
  slot : Int
deriving DecidableEq

/-- The total preorder by which the attachment entries are sorted at commit:
the negation (with swapped arguments) of `SlotAttachmentEntry::operator<`,
which orders by weight and breaks weight ties by slot index
(Animation2DCache.h lines 57-62). -/
def slotAttachmentLe (a b : SlotAttachmentEntry) : Prop :=
  a.alpha < b.alpha ∨ (a.alpha = b.alpha ∧ a.slot ≤ b.slot)

instance : DecidableRel slotAttachmentLe := by
  intro a b
  unfold slotAttachmentLe
  infer_instance

/-- The `QuickSort` call of the attachment commit, modelled by a stable sort
under the comparator of `SlotAttachmentEntry::operator<` (QuickSort only
promises a sorted result; ties in both weight and slot keep cache order
here). -/
def sortAttachments (l : List SlotAttachmentEntry) : List SlotAttachmentEntry :=
  l.insertionSort slotAttachmentLe

/-- The backwards scan of `DataInstance::ApplyCache` (lines 170-178) that
finds the first index of the top-weight group: starting from the last
index, keep decrementing while the previous entry does not have a strictly
smaller weight. -/
def topStartGo (l : List SlotAttachmentEntry) : Nat → Nat
  | 0 => 0
  | u + 1 =>
      if (l.getD u ⟨0, "", 0⟩).alpha < (l.getD (u + 1) ⟨0, "", 0⟩).alpha then u + 1
      else topStartGo l u

/-- First index of the top-weight group in the sorted entry list. -/
def topStart (l : List SlotAttachmentEntry) : Nat :=
  topStartGo l (l.length - 1)

/-- The contiguous top-weight group applied by the attachment commit:
the sorted entries from `topStart` on (lines 182-188). -/
def topGroup (entries : List SlotAttachmentEntry) : List SlotAttachmentEntry :=
  (sortAttachments entries).drop (topStart (sortAttachments entries))

/-- The attachment commit of `DataInstance::ApplyCache` (lines 158-203):
sort the cache entries, apply the top-weight group in order onto the
current slots (recording each touched slot in the scratch set), then reset
every slot not in the scratch set to its Definition default attachment id. -/
def commitAttachments (defaults current : List String)
    (entries : List SlotAttachmentEntry) : List String :=
  (List.range defaults.length).map (fun (i : Nat) =>
    if (i : Int) ∈ (topGroup entries).map SlotAttachmentEntry.slot then
      ((topGroup entries).foldl
        (fun cur e => cur.set e.slot.toNat e.attachmentId) current).getD i ""
    else defaults.getD i "")

/-- One keyframe of the slot-attachment timeline (`KeyFrameAttachment`). -/
structure KeyFrameAttachment where
  time : ℚ
  id : String
deriving DecidableEq

/-- The keyframe scan of the discrete evaluators (lines 824-829 and the
analogous lines 69-74): starting from the front key, keep advancing while
the next key time is at or before the evaluation time. -/
def selectDiscreteKF (k : KeyFrameAttachment) :
    List KeyFrameAttachment → ℚ → KeyFrameAttachment
  | [], _ => k
  | k2 :: rest, t => if k2.time ≤ t then selectDiscreteKF k2 rest t else k

/-- `SlotAttachmentEvaluator::Evaluate` (lines 816-834): contribute nothing
before the first key or when `blendDiscrete` is false and the weight is not
one; otherwise push `(slot, activeKey.id, alpha)` onto the cache list. -/
def slotAttachmentEvaluate (kfs : List KeyFrameAttachment) (slot : Int)
    (t alpha : ℚ) (blendDiscrete : Bool)
    (cacheAtt : List SlotAttachmentEntry) : List SlotAttachmentEntry :=
  match kfs with
  | [] => cacheAtt
  | k0 :: rest =>
      if t < k0.time then cacheAtt
      else if ¬ blendDiscrete ∧ alpha ≠ 1 then cacheAtt
      else cacheAtt ++ [⟨alpha, (selectDiscreteKF k0 rest t).id, slot⟩]

/-
  ===========================================================================
  Definition model shared by the cache commit (C5, C8) and the pose solver
  (C4): immutable rest-pose data from Animation2DDataDefinition.h.
  ===========================================================================
-/

/-- `TransformMode` of a bone (Animation2DDataDefinition.h). -/
inductive TransformMode where
  | normal
  | onlyTranslation
  | noRotationOrReflection
  | noScale
  | noScaleOrReflection
deriving DecidableEq

/-- `BoneDefinition`: parent index (-1 for the root), rest-pose local
transform, length and transform mode. -/
structure BoneDef where
  parent : Int
  px : ℚ
  py : ℚ
  rot : ℚ
  sx : ℚ
  sy : ℚ
  shx : ℚ
  shy : ℚ
  length : ℚ
  mode : TransformMode
deriving DecidableEq

/-- Rest-pose slot data (`SlotDataDefinition`): default attachment id and
default color (RGBA bytes). -/
structure SlotDataDef where
  attachmentId : String
  color : ℚ × ℚ × ℚ × ℚ
deriving DecidableEq

/-- Rest-pose IK constraint values (`IkDefinition`). -/
structure IkDef where
  mix : ℚ
  softness : ℚ
  bendPositive : Bool
  compress : Bool
  stretch : Bool
  uniform : Bool
deriving DecidableEq

/-- Rest-pose path constraint values (`PathDefinition`). -/
structure PathDefQ where
  position : ℚ
  positionMix : ℚ
  rotationMix : ℚ
  spacing : ℚ
deriving DecidableEq

/-- Rest-pose transform constraint mixes (`TransformConstraintDefinition`). -/
structure TransformDefQ where
  positionMix : ℚ
  rotationMix : ℚ
  scaleMix : ℚ
  shearMix : ℚ
deriving DecidableEq

/-- The per-channel rest-pose data of a `DataDefinition` that `ApplyCache`
reads. -/
structure DefnData where
  bones : List BoneDef
  slots : List SlotDataDef
  ikDefs : List IkDef
  paths : List PathDefQ
  transforms : List TransformDefQ
deriving DecidableEq

/-
  ===========================================================================
  Frame cache (C5, C8).
  Embeds `Cache` from Animation2DCache.h and `DataInstance::ApplyCache`
  from Animation2DDataInstance.cpp lines 137-413. The two-color channel is
  accumulated (Animation2DCache.h line 131) but never read back by
  ApplyCache, which matches the source.
  ===========================================================================
-/

/-- `Cache::IkEntry` (Animation2DCache.h lines 28-46). -/
structure IkEntryQ where
  mix : ℚ
  softness : ℚ
  bendPositive : ℚ
  compress : ℚ
  stretch : ℚ
deriving DecidableEq

/-- `IkEntry::operator+=` (commutative and associative componentwise). -/
instance : AddCommSemigroup IkEntryQ where
  add a b :=
    ⟨a.mix + b.mix, a.softness + b.softness,
     a.bendPositive + b.bendPositive, a.compress + b.compress,
     a.stretch + b.stretch⟩
  add_assoc a b c := by
    show (⟨a.mix + b.mix + c.mix, a.softness + b.softness + c.softness,
      a.bendPositive + b.bendPositive + c.bendPositive,
      a.compress + b.compress + c.compress,
      a.stretch + b.stretch + c.stretch⟩ : IkEntryQ) =
      ⟨a.mix + (b.mix + c.mix), a.softness + (b.softness + c.softness),
      a.bendPositive + (b.bendPositive + c.bendPositive),
      a.compress + (b.compress + c.compress),
      a.stretch + (b.stretch + c.stretch)⟩
    simp only [IkEntryQ.mk.injEq]
    exact ⟨add_assoc _ _ _, add_assoc _ _ _, add_assoc _ _ _,
      add_assoc _ _ _, add_assoc _ _ _⟩
  add_comm a b := by
    show (⟨a.mix + b.mix, a.softness + b.softness,
      a.bendPositive + b.bendPositive, a.compress + b.compress,
      a.stretch + b.stretch⟩ : IkEntryQ) =
      ⟨b.mix + a.mix, b.softness + a.softness,
      b.bendPositive + a.bendPositive, b.compress + a.compress,
      b.stretch + a.stretch⟩
    simp only [IkEntryQ.mk.injEq]
    exact ⟨add_comm _ _, add_comm _ _, add_comm _ _, add_comm _ _, add_comm _ _⟩

/-- `Cache::TwoColorEntry` (Animation2DCache.h lines 69-94). -/
structure TwoColorEntryQ where
  light : ℚ × ℚ × ℚ × ℚ
  dark : ℚ × ℚ × ℚ
deriving DecidableEq

/-- `TwoColorEntry::operator+=` (commutative and associative componentwise). -/
instance : AddCommSemigroup TwoColorEntryQ where
  add a b := ⟨a.light + b.light, a.dark + b.dark⟩
  add_assoc a b c := by
    show (⟨a.light + b.light + c.light, a.dark + b.dark + c.dark⟩ : TwoColorEntryQ) =
      ⟨a.light + (b.light + c.light), a.dark + (b.dark + c.dark)⟩
    simp only [TwoColorEntryQ.mk.injEq]
    exact ⟨add_assoc _ _ _, add_assoc _ _ _⟩
  add_comm a b := by
    show (⟨a.light + b.light, a.dark + b.dark⟩ : TwoColorEntryQ) =
      ⟨b.light + a.light, b.dark + a.dark⟩
    simp only [TwoColorEntryQ.mk.injEq]
    exact ⟨add_comm _ _, add_comm _ _⟩

/-- `Cache::AccumCommon` (Animation2DCache.h lines 106-114): insert the
value at the key, or add it onto the present entry. Hash tables are
modelled as functions from keys to optional values. -/
def accumCommon {α : Type} [Add α] (m : Int → Option α) (i : Int) (v : α) :
    Int → Option α :=
  fun k =>
    if k = i then
      some (match m i with
            | none => v
            | some x => x + v)
    else m k

/-- The frame cache (`struct Cache`, Animation2DCache.h lines 26-188). -/
structure Cache where
  attachments : List SlotAttachmentEntry
  color : Int → Option (ℚ × ℚ × ℚ × ℚ)
  twoColor : Int → Option TwoColorEntryQ
  drawOrder : List Int
  ik : Int → Option IkEntryQ
  pathMix : Int → Option (ℚ × ℚ)
  pathPosition : Int → Option ℚ
  pathSpacing : Int → Option ℚ
  position : Int → Option (ℚ × ℚ)
  rotation : Int → Option ℚ
  scale : Int → Option (ℚ × ℚ × ℚ)
  shear : Int → Option (ℚ × ℚ)
  transform : Int → Option (ℚ × ℚ × ℚ × ℚ)

/-- The cleared cache (`Cache::Clear`). -/
def emptyCache : Cache :=
  ⟨[], fun _ => none, fun _ => none, [], fun _ => none, fun _ => none,
   fun _ => none, fun _ => none, fun _ => none, fun _ => none, fun _ => none,
   fun _ => none, fun _ => none⟩

/-- One cache write, as issued by an evaluator during a frame: the `Accum*`
calls of Animation2DCache.h lines 116-132 plus the draw-order overwrite
performed by `DrawOrderEvaluator::Evaluate`. -/
inductive Cmd where
  | accumIk (i : Int) (e : IkEntryQ)
  | accumPathMix (i : Int) (v : ℚ × ℚ)
  | accumPathPosition (i : Int) (f : ℚ)
  | accumPathSpacing (i : Int) (f : ℚ)
  | accumPosition (i : Int) (v : ℚ × ℚ)
  | accumRotation (i : Int) (f : ℚ)
  | accumScale (i : Int) (v : ℚ × ℚ) (alpha : ℚ)
  | accumShear (i : Int) (v : ℚ × ℚ)
  | accumSlotAttachment (slot : Int) (attachmentId : String) (alpha : ℚ)
  | accumSlotColor (i : Int) (v : ℚ × ℚ × ℚ × ℚ)
  | accumSlotTwoColor (i : Int) (e : TwoColorEntryQ)
  | accumTransform (i : Int) (v : ℚ × ℚ × ℚ × ℚ)
  | setDrawOrder (v : List Int)

/-- Apply one cache write. -/
def runCmd (c : Cache) : Cmd → Cache
  | .accumIk i e => { c with ik := accumCommon c.ik i e }
  | .accumPathMix i v => { c with pathMix := accumCommon c.pathMix i v }
  | .accumPathPosition i f => { c with pathPosition := accumCommon c.pathPosition i f }
  | .accumPathSpacing i f => { c with pathSpacing := accumCommon c.pathSpacing i f }
  | .accumPosition i v => { c with position := accumCommon c.position i v }
  | .accumRotation i f => { c with rotation := accumCommon c.rotation i f }
  | .accumScale i v alpha => { c with scale := accumCommon c.scale i (v.1, v.2, alpha) }
  | .accumShear i v => { c with shear := accumCommon c.shear i v }
  | .accumSlotAttachment slot attId alpha =>
      { c with attachments := c.attachments ++ [⟨alpha, attId, slot⟩] }
  | .accumSlotColor i v => { c with color := accumCommon c.color i v }
  | .accumSlotTwoColor i e => { c with twoColor := accumCommon c.twoColor i e }
  | .accumTransform i v => { c with transform := accumCommon c.transform i v }
  | .setDrawOrder v => { c with drawOrder := v }

/-- A frame of cache writes. -/
def runCmds (c : Cache) (l : List Cmd) : Cache := l.foldl runCmd c

/-- The writes that go to additive keyed accumulators: everything except
the slot-attachment push list and the draw-order overwrite. -/
def Cmd.additive : Cmd → Prop
  | .accumSlotAttachment _ _ _ => False
  | .setDrawOrder _ => False
  | _ => True

/-- `ClampDegrees`. Modelled from the spec: SeoulMath.h is outside this
repository slice; section 4.1 of the spec documents `clamp_degrees(x)` as
mapping `x` into `(-180, 180]`. -/
def clampDegrees (x : ℚ) : ℚ := x - 360 * ⌈(x - 180) / 360⌉

/-- `FloatToBool` (Animation2DDataInstance.cpp lines 35-38):
`((bBase ? 1 : 0) + f) >= 0.5`. -/
def floatToBool (bBase : Bool) (f : ℚ) : Bool :=
  decide (boolToQ bBase + f ≥ 1 / 2)

/-- Committed per-slot state (`SlotInstance`): attachment id and RGBA color
after the byte conversion of the color commit. -/
structure SlotState where
  attachmentId : String
  color : ℤ × ℤ × ℤ × ℤ
deriving DecidableEq

/-- Committed per-IK state (`IkInstance` channels written by ApplyCache). -/
structure IkState where
  mix : ℚ
  softness : ℚ
  bendPositive : Bool
  compress : Bool
  stretch : Bool
deriving DecidableEq

/-- Committed per-path state (`PathInstance` channels written by ApplyCache). -/
structure PathState where
  position : ℚ
  positionMix : ℚ
  rotationMix : ℚ
  spacing : ℚ
deriving DecidableEq

/-- Committed per-bone local values (`BoneInstance`). -/
structure BoneState where
  px : ℚ
  py : ℚ
  rot : ℚ
  sx : ℚ
  sy : ℚ
  shx : ℚ
  shy : ℚ
deriving DecidableEq

/-- The instance state written by `DataInstance::ApplyCache`. -/
structure InstanceState where
  drawOrder : List Int
  slots : List SlotState
  ik : List IkState
  paths : List PathState
  transforms : List (ℚ × ℚ × ℚ × ℚ)
  bones : List BoneState
deriving DecidableEq

/-- One color component of the color commit (lines 222-225):
`(UInt8)Min((Float)base + v + 0.5f, 255.0f)`, the float-to-byte cast
modelled as the floor. -/
def commitColorComp (base comp : ℚ) : ℤ := ⌊min (base + comp + 1 / 2) 255⌋

/-- The color commit for one slot (lines 205-228). -/
def commitSlotColor (base : ℚ × ℚ × ℚ × ℚ) (v? : Option (ℚ × ℚ × ℚ × ℚ)) :
    ℤ × ℤ × ℤ × ℤ :=
  match v? with
  | none => (⌊base.1⌋, ⌊base.2.1⌋, ⌊base.2.2.1⌋, ⌊base.2.2.2⌋)
  | some v => (commitColorComp base.1 v.1, commitColorComp base.2.1 v.2.1,
      commitColorComp base.2.2.1 v.2.2.1, commitColorComp base.2.2.2 v.2.2.2)

/-- The IK commit for one constraint (lines 230-257): mixes add, booleans
re-threshold through `FloatToBool`. -/
def commitIk (base : IkDef) (e? : Option IkEntryQ) : IkState :=
  match e? with
  | none => ⟨base.mix, base.softness, base.bendPositive, base.compress, base.stretch⟩
  | some e =>
      ⟨base.mix + e.mix, base.softness + e.softness,
       floatToBool base.bendPositive e.bendPositive,
       floatToBool base.compress e.compress,
       floatToBool base.stretch e.stretch⟩

/-- The path commit for one constraint (lines 259-311). -/
def commitPath (base : PathDefQ) (mix? : Option (ℚ × ℚ)) (pos? : Option ℚ)
    (spacing? : Option ℚ) : PathState :=
  ⟨(match pos? with | none => base.position | some f => base.position + f),
   (match mix? with | none => base.positionMix | some v => base.positionMix + v.1),
   (match mix? with | none => base.rotationMix | some v => base.rotationMix + v.2),
   (match spacing? with | none => base.spacing | some f => base.spacing + f)⟩

/-- The transform-constraint commit (lines 313-338). -/
def commitTransform (base : TransformDefQ) (v? : Option (ℚ × ℚ × ℚ × ℚ)) :
    ℚ × ℚ × ℚ × ℚ :=
  match v? with
  | none => (base.positionMix, base.rotationMix, base.scaleMix, base.shearMix)
  | some v => (base.positionMix + v.1, base.rotationMix + v.2.1,
      base.scaleMix + v.2.2.1, base.shearMix + v.2.2.2)

/-- The bone commit (lines 340-410): position and shear add, rotation adds
then clamps into `(-180, 180]`, scale multiplies with the weighted
base-scale fade `1 - clamp(w, 0, 1)`. -/
def commitBone (base : BoneDef) (pos? : Option (ℚ × ℚ)) (rot? : Option ℚ)
    (scale? : Option (ℚ × ℚ × ℚ)) (shear? : Option (ℚ × ℚ)) : BoneState :=
  { px := (match pos? with | none => base.px | some v => base.px + v.1)
    py := (match pos? with | none => base.py | some v => base.py + v.2)
    rot := (match rot? with
            | none => base.rot
            | some f => clampDegrees (base.rot + f))
    sx := (match scale? with
           | none => base.sx
           | some v => base.sx * v.1 + base.sx * (1 - min (max v.2.2 0) 1))
    sy := (match scale? with
           | none => base.sy
           | some v => base.sy * v.2.1 + base.sy * (1 - min (max v.2.2 0) 1))
    shx := (match shear? with | none => base.shx | some v => base.shx + v.1)
    shy := (match shear? with | none => base.shy | some v => base.shy + v.2) }

/-- `DataInstance::ApplyCache` (lines 137-413): commit every channel of the
frame cache into instance state (the cache is cleared afterwards by the
source; the committed state is returned here). -/
def applyCache (d : DefnData) (cur : InstanceState) (cache : Cache) : InstanceState :=
  { drawOrder := commitDrawOrder d.slots.length cache.drawOrder
    slots := (List.range d.slots.length).map (fun (i : Nat) =>
      { attachmentId :=
          (commitAttachments (d.slots.map SlotDataDef.attachmentId)
            (cur.slots.map SlotState.attachmentId) cache.attachments).getD i ""
        color := commitSlotColor (d.slots.getD i ⟨"", (0, 0, 0, 0)⟩).color
          (cache.color i) })
    ik := (List.range d.ikDefs.length).map (fun (i : Nat) =>
      commitIk (d.ikDefs.getD i ⟨0, 0, false, false, false, false⟩) (cache.ik i))
    paths := (List.range d.paths.length).map (fun (i : Nat) =>
      commitPath (d.paths.getD i ⟨0, 0, 0, 0⟩) (cache.pathMix i)
        (cache.pathPosition i) (cache.pathSpacing i))
    transforms := (List.range d.transforms.length).map (fun (i : Nat) =>
      commitTransform (d.transforms.getD i ⟨0, 0, 0, 0⟩) (cache.transform i))
    bones := (List.range d.bones.length).map (fun (i : Nat) =>
      commitBone (d.bones.getD i ⟨-1, 0, 0, 0, 1, 1, 0, 0, 0, .normal⟩)
        (cache.position i) (cache.rotation i) (cache.scale i) (cache.shear i)) }

/-
  ===========================================================================
  IK timeline booleans (C8).
  Embeds `LerpBoolean` (Animation2DClipInstance.cpp lines 491-498) and
  `IkEvaluator::Evaluate` (lines 515-540).
  ===========================================================================
-/

/-- One keyframe of the IK timeline (`KeyFrameIk`). -/
structure KeyFrameIk where
  time : ℚ
  mix : ℚ
  softness : ℚ
  bendPositive : Bool
  compress : Bool
  stretch : Bool
deriving DecidableEq

/-- `LerpBoolean` (lines 491-498): booleans as the floats 0 / 1, lerped,
minus the rest-pose value, weighted. -/
def lerpBoolean (bBase b0 b1 : Bool) (fT fAlpha : ℚ) : ℚ :=
  (lerp (boolToQ b0) (boolToQ b1) fT - boolToQ bBase) * fAlpha

/-- The entry built by `IkEvaluator::Evaluate` (lines 530-536) from the
rest-pose values, the bracketing keys and the curve parameter `fT`, scaled
by the blend weight `fAlpha`. -/
def ikEvaluate (base : IkDef) (k0 k1 : KeyFrameIk) (fT fAlpha : ℚ) : IkEntryQ :=
  { mix := (lerp k0.mix k1.mix fT - base.mix) * fAlpha
    softness := (lerp k0.softness k1.softness fT - base.softness) * fAlpha
    bendPositive := lerpBoolean base.bendPositive k0.bendPositive k1.bendPositive fT fAlpha
    compress := lerpBoolean base.compress k0.compress k1.compress fT fAlpha
    stretch := lerpBoolean base.stretch k0.stretch k1.stretch fT fAlpha }

/-
  ===========================================================================
  Pose solver (C4).
  Embeds `BoneInstance::ComputeWorldTransform` (Animation2DDataInstance.h
  lines 63-81), `DataInstance::InternalPoseBone` (Animation2DDataInstance.cpp
  lines 528-680), `DataInstance::PoseSkinningPalette` (lines 420-458) and
  `DataInstance::InternalConstruct` (lines 460-490). Machine real functions
  (cos, sin, atan2, sqrt, the degree/radian conversions and pi/2) are
  passed as explicit rational function parameters.
  ===========================================================================
-/

/-- The machine real functions used by the pose solver, abstracted over ℚ. -/
structure RealFns where
  cos : ℚ → ℚ
  sin : ℚ → ℚ
  atan2 : ℚ → ℚ → ℚ
  sqrt : ℚ → ℚ
  degToRad : ℚ → ℚ
  radToDeg : ℚ → ℚ
  piOverTwo : ℚ

/-- A 2x2 matrix (`Matrix2D`). Modelled from the spec (section 4.1); the
engine Matrix2D header is outside this repository slice. -/
structure Matrix2D where
  M00 : ℚ
  M01 : ℚ
  M10 : ℚ
  M11 : ℚ
deriving DecidableEq

/-- 2x2 matrix product. -/
def mul2 (a b : Matrix2D) : Matrix2D :=
  ⟨a.M00 * b.M00 + a.M01 * b.M10, a.M00 * b.M01 + a.M01 * b.M11,
   a.M10 * b.M00 + a.M11 * b.M10, a.M10 * b.M01 + a.M11 * b.M11⟩

/-- 2x2 determinant. -/
def det2 (a : Matrix2D) : ℚ := a.M00 * a.M11 - a.M01 * a.M10

/-- A 2x3 affine matrix (`Matrix2x3`): upper 2x2 plus translation column.
Modelled from the spec (section 4.1); the engine Matrix2x3 header is
outside this repository slice. -/
structure Matrix2x3 where
  M00 : ℚ
  M01 : ℚ
  M10 : ℚ
  M11 : ℚ
  TX : ℚ
  TY : ℚ
deriving DecidableEq

/-- The identity 2x3 matrix (`Matrix2x3::Identity`). -/
def idMatrix2x3 : Matrix2x3 := ⟨1, 0, 0, 1, 0, 0⟩

/-- Affine composition `a * b`, the third column read as translation. -/
def mulM (a b : Matrix2x3) : Matrix2x3 :=
  ⟨a.M00 * b.M00 + a.M01 * b.M10, a.M00 * b.M01 + a.M01 * b.M11,
   a.M10 * b.M00 + a.M11 * b.M10, a.M10 * b.M01 + a.M11 * b.M11,
   a.M00 * b.TX + a.M01 * b.TY + a.TX,
   a.M10 * b.TX + a.M11 * b.TY + a.TY⟩

/-- `Matrix2x3::TransformPosition`. -/
def transformPosition (m : Matrix2x3) (v : ℚ × ℚ) : ℚ × ℚ :=
  (m.M00 * v.1 + m.M01 * v.2 + m.TX, m.M10 * v.1 + m.M11 * v.2 + m.TY)

/-- `Matrix2x3::CreateFrom(Matrix2D, Vector2D)`. -/
def createFrom (u : Matrix2D) (t : ℚ × ℚ) : Matrix2x3 :=
  ⟨u.M00, u.M01, u.M10, u.M11, t.1, t.2⟩

/-- `Matrix2x3::GetUpper2x2`. -/
def upper2x2 (m : Matrix2x3) : Matrix2D := ⟨m.M00, m.M01, m.M10, m.M11⟩

/-- `BoneInstance::ComputeWorldTransform` (Animation2DDataInstance.h lines
63-81). -/
def computeWorldTransform (fns : RealFns)
    (px py rot sx sy shx shy : ℚ) : Matrix2x3 :=
  ⟨fns.cos (fns.degToRad (rot + shx)) * sx,
   fns.cos (fns.degToRad (rot + 90 + shy)) * sy,
   fns.sin (fns.degToRad (rot + shx)) * sx,
   fns.sin (fns.degToRad (rot + 90 + shy)) * sy,
   px, py⟩

/-- `DataInstance::InternalPoseBone` (Animation2DDataInstance.cpp lines
542-680): pose one bone into the palette from explicit local values,
branching on the transform mode. -/
def internalPoseBone (fns : RealFns) (bones : List BoneDef)
    (palette : List Matrix2x3) (iBone : Nat)
    (px py rot sx sy shx shy : ℚ) : List Matrix2x3 :=
  let data := bones.getD iBone ⟨-1, 0, 0, 0, 1, 1, 0, 0, 0, .normal⟩
  let mParent := palette.getD data.parent.toNat idMatrix2x3
  match data.mode with
  | .normal =>
      palette.set iBone (mulM mParent (computeWorldTransform fns px py rot sx sy shx shy))
  | .onlyTranslation =>
      let r := computeWorldTransform fns px py rot sx sy shx shy
      palette.set iBone (createFrom (upper2x2 r) (transformPosition mParent (r.TX, r.TY)))
  | .noRotationOrReflection =>
      let p := upper2x2 mParent
      let fS := p.M00 * p.M00 + p.M10 * p.M10
      let pr : Matrix2D × ℚ :=
        if fS > 1 / 10000 then
          let s2 := |det2 p| / fS
          (⟨p.M00, p.M10 * s2, p.M10, p.M00 * s2⟩,
           fns.radToDeg (fns.atan2 p.M10 p.M00))
        else
          (⟨0, p.M01, 0, p.M11⟩, 90 - fns.radToDeg (fns.atan2 p.M11 p.M01))
      let p3 : Matrix2D := ⟨pr.1.M00, -pr.1.M01, pr.1.M10, pr.1.M11⟩
      let fRX := fns.degToRad (rot + shx - pr.2)
      let fRY := fns.degToRad (rot + shy - pr.2 + 90)
      let bone2 : Matrix2D :=
        ⟨fns.cos fRX * sx, fns.cos fRY * sy, fns.sin fRX * sx, fns.sin fRY * sy⟩
      palette.set iBone
        (createFrom (mul2 p3 bone2) (transformPosition mParent (px, py)))
  | .noScale =>
      let c := fns.cos (fns.degToRad rot)
      let s := fns.sin (fns.degToRad rot)
      let a00 := mParent.M00 * c + mParent.M01 * s
      let a10 := mParent.M10 * c + mParent.M11 * s
      let fS := fns.sqrt (a00 * a00 + a10 * a10)
      let fS2 := if fS > 1 / 10000 then 1 / fS else fS
      let b00 := a00 * fS2
      let b10 := a10 * fS2
      let fS3 := fns.sqrt (b00 * b00 + b10 * b10)
      let fR := fns.piOverTwo + fns.atan2 b10 b00
      let parent2 : Matrix2D := ⟨b00, fns.cos fR * fS3, b10, fns.sin fR * fS3⟩
      let fRX := fns.degToRad shx
      let fRY := fns.degToRad (shy + 90)
      let bone2 : Matrix2D :=
        ⟨fns.cos fRX * sx, fns.cos fRY * sy, fns.sin fRX * sx, fns.sin fRY * sy⟩
      let r := createFrom (mul2 parent2 bone2) (transformPosition mParent (px, py))
      let r2 := if det2 (upper2x2 mParent) < 0 then
          ({ r with M01 := -r.M01, M11 := -r.M11 } : Matrix2x3)
        else r
      palette.set iBone r2
  | .noScaleOrReflection =>
      let c := fns.cos (fns.degToRad rot)
      let s := fns.sin (fns.degToRad rot)
      let a00 := mParent.M00 * c + mParent.M01 * s
      let a10 := mParent.M10 * c + mParent.M11 * s
      let fS := fns.sqrt (a00 * a00 + a10 * a10)
      let fS2 := if fS > 1 / 10000 then 1 / fS else fS
      let b00 := a00 * fS2
      let b10 := a10 * fS2
      let fS3 := fns.sqrt (b00 * b00 + b10 * b10)
      let fR := fns.piOverTwo + fns.atan2 b10 b00
      let parent2 : Matrix2D := ⟨b00, fns.cos fR * fS3, b10, fns.sin fR * fS3⟩
      let fRX := fns.degToRad shx
      let fRY := fns.degToRad (shy + 90)
      let bone2 : Matrix2D :=
        ⟨fns.cos fRX * sx, fns.cos fRY * sy, fns.sin fRX * sx, fns.sin fRY * sy⟩
      palette.set iBone (createFrom (mul2 parent2 bone2) (transformPosition mParent (px, py)))

/-- `BoneInstance::Assign` (Animation2DDataInstance.cpp lines 40-51). -/
def boneStateOf (b : BoneDef) : BoneState :=
  ⟨b.px, b.py, b.rot, b.sx, b.sy, b.shx, b.shy⟩

/-- `DataInstance::InternalPoseBone(Int16)` (lines 528-540): pose a bone
from its current instance state. -/
def internalPoseBoneState (fns : RealFns) (bones : List BoneDef)
    (states : List BoneState) (palette : List Matrix2x3) (iBone : Nat) :
    List Matrix2x3 :=
  let st := states.getD iBone ⟨0, 0, 0, 1, 1, 0, 0⟩
  internalPoseBone fns bones palette iBone st.px st.py st.rot st.sx st.sy st.shx st.shy

/-- The pose task list produced by `DataDefinition::FinalizePoseTasks`
(Animation2DDataDefinition.cpp lines 440-627) for a definition with no
constraints: the final loop (lines 618-624) emits one bone task per
non-root bone in index order. -/
def poseTasksBonesOnly (n : Nat) : List Nat := List.range' 1 (n - 1)

/-- `DataInstance::PoseSkinningPalette` (lines 420-458) for a
constraint-free definition: nothing on an empty palette, otherwise the
root is posed specially (its local transform with no parent composition)
and then the pose task list runs in order. -/
def poseSkinningPalette (fns : RealFns) (defs : List BoneDef)
    (states : List BoneState) (palette : List Matrix2x3) : List Matrix2x3 :=
  if palette.length = 0 then palette
  else
    let st0 := states.getD 0 ⟨0, 0, 0, 1, 1, 0, 0⟩
    (poseTasksBonesOnly defs.length).foldl
      (fun pal i => internalPoseBoneState fns defs states pal i)
      (palette.set 0
        (computeWorldTransform fns st0.px st0.py st0.rot st0.sx st0.sy st0.shx st0.shy))

/-- `DataInstance::InternalConstruct` (lines 460-490) for a
constraint-free definition: assign bone states from the definition,
default the draw order, identity-fill the palette, then pose. Returns the
palette and draw order of the newly constructed instance. -/
def instanceConstruct (fns : RealFns) (defs : List BoneDef) (nSlots : Nat) :
    List Matrix2x3 × List Int :=
  (poseSkinningPalette fns defs (defs.map boneStateOf)
    (List.replicate defs.length idMatrix2x3),
   setDefaultDrawOrder nSlots)

/-- Modelled from the spec: the recursive composition of each bone's
default (rest-pose) local transform with its parent's matrix, as stated in
spec sections 6 and 8 ("rest pose identity"); fuel-indexed so the
recursion over parent indices is structural (any fuel at least the bone
index gives the intended value when parents precede children). -/
def specRestPose (fns : RealFns) (defs : List BoneDef) :
    Nat → Nat → Matrix2x3
  | 0, i =>
      let b := defs.getD i ⟨-1, 0, 0, 0, 1, 1, 0, 0, 0, .normal⟩
      computeWorldTransform fns b.px b.py b.rot b.sx b.sy b.shx b.shy
  | fuel + 1, i =>
      let b := defs.getD i ⟨-1, 0, 0, 0, 1, 1, 0, 0, 0, .normal⟩
      if b.parent < 0 then
        computeWorldTransform fns b.px b.py b.rot b.sx b.sy b.shx b.shy
      else
        mulM (specRestPose fns defs fuel b.parent.toNat)
          (computeWorldTransform fns b.px b.py b.rot b.sx b.sy b.shx b.shy)

/-- Concrete real-function instantiation for the C4 counterexample: only
the angles 0 and 90 degrees occur, where the exact cosine and sine values
are 1, 0 and 0, 1 (degrees kept as the angle unit for these two points). -/
def exFns : RealFns :=
  { cos := fun x => if x = 0 then 1 else 0
    sin := fun x => if x = 90 then 1 else 0
    atan2 := fun _ _ => 0
    sqrt := fun _ => 0
    degToRad := fun x => x
    radToDeg := fun x => x
    piOverTwo := 0 }


/-
  ===========================================================================
  IK inversion sites (C6).
  Embeds the parent-matrix inversions of `DataInstance::InternalPoseIk1`
  (Animation2DDataInstance.cpp lines 718-760) and
  `DataInstance::InternalPoseIk2` (line 904). C++ float division by a zero
  denominator yields a non-finite value; guarded division is modelled as
  an Option so that exactly those divisions surface as `none`.
  ===========================================================================
-/

/-- Division returning `none` on a zero denominator: the site where C++
float division would produce a non-finite value. -/
def divQ? (a b : ℚ) : Option ℚ := if b = 0 then none else some (a / b)

/-- Modelled from the spec: `IsZero(f, eps)` of the engine math header
(outside this repository slice), the epsilon test used at the guarded
inversion sites. -/
def isZeroQ (f eps : ℚ) : Bool := decide (|f| ≤ eps)

/-- The local-target computation of `DataInstance::InternalPoseIk1`
(lines 727-760): the switch on the parent transform mode. The
OnlyTranslation case uses no inversion; the NoRotationOrReflection case
divides by `pa * pa + pc * pc` to renormalize and then by the rebuilt
determinant `d`; every other mode divides by the raw parent determinant
`d = pa * pd - pb * pc` with no epsilon or zero guard (the dead head
computation of lines 721-726 forms the same unguarded inverse `fId`).
Target-relative coordinates and the state positions px, py are the other
inputs. -/
def ik1LocalTarget (mode : TransformMode) (mPP : Matrix2x3)
    (target : ℚ × ℚ) (px py : ℚ) : Option (ℚ × ℚ) :=
  let x := target.1 - mPP.TX
  let y := target.2 - mPP.TY
  match mode with
  | .onlyTranslation => some (x, y)
  | .noRotationOrReflection =>
      let pa := mPP.M00
      let pc := mPP.M10
      match divQ? (|mPP.M00 * mPP.M11 - mPP.M01 * mPP.M10|) (pa * pa + pc * pc) with
      | none => none
      | some ps =>
          let pb := -pc * ps
          let pd := pa * ps
          let d := pa * pd - pb * pc
          match divQ? (x * pd - y * pb) d, divQ? (y * pa - x * pc) d with
          | some tx, some ty => some (tx - px, ty - py)
          | _, _ => none
  | _ =>
      let pa := mPP.M00
      let pb := mPP.M01
      let pc := mPP.M10
      let pd := mPP.M11
      let d := pa * pd - pb * pc
      match divQ? (x * pd - y * pb) d, divQ? (y * pa - x * pc) d with
      | some tx, some ty => some (tx - px, ty - py)
      | _, _ => none

/-- The inverse-determinant site of `DataInstance::InternalPoseIk2`
(line 904): `id = IsZero(cross, 0.00001f) ? 0.0f : (1.0f / cross)` — the
epsilon-guarded inversion of the parent matrix. -/
def ik2InverseDet (mPP : Matrix2x3) : Option ℚ :=
  let cross := mPP.M00 * mPP.M11 - mPP.M01 * mPP.M10
  if isZeroQ cross (1 / 100000) then some 0 else divQ? 1 cross


/-
  ===========================================================================
  Deform evaluator registration (C7).
  Embeds the reference-count and buffer life cycle of `DeformEvaluator`
  (Animation2DClipInstance.cpp lines 380-494) against the instance tables
  `m_tDeformReferences` and `m_tDeforms`, `DataInstance::Clone`
  (Animation2DDataInstance.cpp lines 115-134), and the freshly
  constructed instance (both tables empty).
  ===========================================================================
-/

/-- Per-key evaluator reference counts (`m_tDeformReferences`) and per-key
deform buffer presence (`m_tDeforms`); keys modelled as integers. -/
structure DeformState where
  refs : Int → Nat
  bufs : Int → Bool

/-- A freshly constructed instance: both tables empty. -/
def deformInit : DeformState := ⟨fun _ => 0, fun _ => false⟩

/-- The operations a deform evaluator performs against the instance:
construction (lines 382-402), destruction (lines 404-420), and an
`Evaluate` call (lines 422-481) whose `beforeFront` flag records whether
the evaluation time precedes the first keyframe. -/
inductive DeformOp where
  | ctor (key : Int)
  | dtor (key : Int)
  | evaluate (key : Int) (beforeFront : Bool)
deriving DecidableEq

/-- One operation against the instance tables, as the source performs it:
construction only increments the reference count (no buffer is created);
destruction decrements and, at zero, erases the count and deletes the
buffer; `Evaluate` before the first keyframe deletes the buffer when this
is the sole registered evaluator, and otherwise (in range) creates the
buffer if absent and writes it. -/
def deformStep (s : DeformState) : DeformOp → DeformState
  | .ctor j =>
      { s with refs := fun k => if k = j then s.refs k + 1 else s.refs k }
  | .dtor j =>
      if s.refs j - 1 = 0 then
        { refs := fun k => if k = j then 0 else s.refs k,
          bufs := fun k => if k = j then false else s.bufs k }
      else
        { s with refs := fun k => if k = j then s.refs k - 1 else s.refs k }
  | .evaluate j beforeFront =>
      if beforeFront then
        if s.refs j = 1 then
          { s with bufs := fun k => if k = j then false else s.bufs k }
        else s
      else
        { s with bufs := fun k => if k = j then true else s.bufs k }

/-- Validity of one operation: destruction and `Evaluate` act through a
live evaluator, so the key's reference count is at least one (the source
asserts exactly this). -/
def deformOpOk (s : DeformState) : DeformOp → Bool
  | .ctor _ => true
  | .dtor j => decide (1 ≤ s.refs j)
  | .evaluate j _ => decide (1 ≤ s.refs j)

/-- Validity of a whole operation sequence from a given state. -/
def deformTraceOk : DeformState → List DeformOp → Bool
  | _, [] => true
  | s, op :: rest => deformOpOk s op && deformTraceOk (deformStep s op) rest

/-- Run a sequence of deform operations. -/
def deformRun (s : DeformState) (ops : List DeformOp) : DeformState :=
  ops.foldl deformStep s

/-- `DataInstance::Clone` (lines 115-134): the clone receives a deep copy
of `m_tDeforms` but `m_tDeformReferences` is not copied — the cloned
instance starts with every reference count at zero. -/
def deformClone (s : DeformState) : DeformState :=
  ⟨fun _ => 0, s.bufs⟩


/-
  ===========================================================================
  Id resolution (C9).
  Embeds `DataDefinition::GetBoneIndex` / `GetSlotIndex`
  (Animation2DDataDefinition.h lines 501 and 530), the bone-timeline loop
  of `ClipInstance::InternalConstructEvaluators`
  (Animation2DClipInstance.cpp lines 1090-1130), and the constraint
  finalizers `DataDefinition::FinalizeIk` / `FinalizePaths` /
  `FinalizeTransforms` (Animation2DDataDefinition.cpp lines 289-321,
  322-354 and 748-780).
  ===========================================================================
-/

/-- `GetBoneIndex` / `GetSlotIndex`: resolve an id against the finalized
definition-order id table, -1 when absent (first match wins, as the
finalizers insert each id once). -/
def lookupIndex (ids : List String) (id : String) : Int :=
  match ids with
  | [] => -1
  | x :: rest =>
      if x = id then 0
      else if lookupIndex rest id < 0 then -1 else lookupIndex rest id + 1

/-- The four per-bone keyframe channels of a clip bone timeline entry,
each carried as its keyframe time list (only emptiness matters to
evaluator construction). -/
structure BoneTimelines where
  rotation : List ℚ
  scale : List ℚ
  shear : List ℚ
  translation : List ℚ
deriving DecidableEq

/-- The channel an evaluator animates. -/
inductive BoneChannel where
  | rotation
  | scale
  | shear
  | translation
deriving DecidableEq

/-- A constructed bone evaluator: its channel and the resolved bone index
it will write through. -/
structure BoneEvalRec where
  channel : BoneChannel
  iBone : Int
deriving DecidableEq

/-- The evaluators pushed for one resolved bone entry, in source order:
rotation, scale, shear, translation, one per nonempty channel. -/
def boneEvalRecords (iBone : Int) (tl : BoneTimelines) : List BoneEvalRec :=
  (if tl.rotation.isEmpty then [] else [⟨.rotation, iBone⟩]) ++
  (if tl.scale.isEmpty then [] else [⟨.scale, iBone⟩]) ++
  (if tl.shear.isEmpty then [] else [⟨.shear, iBone⟩]) ++
  (if tl.translation.isEmpty then [] else [⟨.translation, iBone⟩])

/-- The bone-timeline loop of `ClipInstance::InternalConstructEvaluators`
(lines 1098-1129): resolve each entry id with `GetBoneIndex`; a negative
index is skipped with `continue` (retargeting support), otherwise the
entry's evaluators are pushed. -/
def constructBoneEvaluators (boneIds : List String) :
    List (String × BoneTimelines) → List BoneEvalRec
  | [] => []
  | e :: rest =>
      if lookupIndex boneIds e.1 < 0 then constructBoneEvaluators boneIds rest
      else boneEvalRecords (lookupIndex boneIds e.1) e.2 ++
        constructBoneEvaluators boneIds rest

/-- A constraint as the finalizers see it: target id plus constrained
bone ids. -/
structure ConstraintDef where
  targetId : String
  boneIds : List String
deriving DecidableEq

/-- Success value of `DataDefinition::FinalizeIk` (lines 289-321): false
as soon as an IK constraint's target bone id is missing, its bone list is
empty, or any constrained bone id is missing. -/
def finalizeIk (boneIds : List String) (iks : List ConstraintDef) : Bool :=
  iks.all (fun c => decide (0 ≤ lookupIndex boneIds c.targetId) &&
    !c.boneIds.isEmpty &&
    c.boneIds.all (fun b => decide (0 ≤ lookupIndex boneIds b)))

/-- Success value of `DataDefinition::FinalizePaths` (lines 322-354):
as FinalizeIk, except the target id resolves against the slot table. -/
def finalizePaths (boneIds slotIds : List String)
    (paths : List ConstraintDef) : Bool :=
  paths.all (fun c => decide (0 ≤ lookupIndex slotIds c.targetId) &&
    !c.boneIds.isEmpty &&
    c.boneIds.all (fun b => decide (0 ≤ lookupIndex boneIds b)))

/-- Success value of `DataDefinition::FinalizeTransforms` (lines
748-780): shape of FinalizeIk, target resolved against the bone table. -/
def finalizeTransforms (boneIds : List String)
    (ts : List ConstraintDef) : Bool :=
  ts.all (fun c => decide (0 ≤ lookupIndex boneIds c.targetId) &&
    !c.boneIds.isEmpty &&
    c.boneIds.all (fun b => decide (0 ≤ lookupIndex boneIds b)))


/-
  ===========================================================================
  Editor-time quantization (C10).
  Embeds `ToEditorTime` (Animation2DClipInstance.cpp lines 25-35) and the
  sanitize-then-dispatch entry points `ClipInstance::Evaluate` (lines
  1073-1082), `ClipInstance::EvaluateRange` (lines 1057-1071) and
  `ClipInstance::GetNextEventTime` (lines 1043-1055).
  ===========================================================================
-/

/-- `ToEditorTime`: `Round(t * 10000.0) / 10000.0`. `Round` comes from
the engine math header, outside this repository slice; modelled from the
spec as rounding to the nearest integer. -/
def toEditorTime (t : ℚ) : ℚ := (round (t * 10000) : ℤ) / 10000

/-- `ClipInstance::Evaluate` (lines 1073-1082): the time is sanitized
with `ToEditorTime`, then every evaluator runs on it; the evaluator pass
over the cache is abstracted as a function of the sanitized time, the
weight and the discrete-blend flag. -/
def clipEvaluate {α : Type} (evaluatorPass : ℚ → ℚ → Bool → α)
    (t alpha : ℚ) (blendDiscrete : Bool) : α :=
  evaluatorPass (toEditorTime t) alpha blendDiscrete

/-- `ClipInstance::EvaluateRange` (lines 1057-1071): both endpoints are
sanitized with `ToEditorTime`, then the event evaluator runs. -/
def clipEvaluateRange (events : List EventKF) (threshold t0 t1 alpha : ℚ) :
    List EventKF :=
  eventEvaluateRange events threshold (toEditorTime t0) (toEditorTime t1) alpha

/-- `ClipInstance::GetNextEventTime` (lines 1043-1055): the start time is
sanitized with `ToEditorTime`, then the event evaluator searches. -/
def clipGetNextEventTime (events : List EventKF) (name : String)
    (startTime : ℚ) : Option ℚ :=
  eventGetNextEventTime events name (toEditorTime startTime)

/-
  ===========================================================================
  Theorems and supporting lemmas.
  ===========================================================================
-/

theorem getD_set_ne2 {α : Type} (l : List α) (i j : Nat) (a d : α) (h : i ≠ j) :
    (l.set i a).getD j d = l.getD j d := by
  simp [List.getD_eq_getElem?_getD, List.getElem?_set_ne h]

theorem getD_set_self2 {α : Type} (l : List α) (i : Nat) (a d : α) (h : i < l.length) :
    (l.set i a).getD i d = a := by
  simp [List.getD_eq_getElem?_getD, List.getElem?_set_eq_of_lt a h]

theorem getD_map_range {α : Type} (f : Nat → α) (n s : Nat) (d : α) (h : s < n) :
    ((List.range n).map f).getD s d = f s := by
  rw [List.getD_eq_getElem?_getD, List.getElem?_map, List.getElem?_range h]
  rfl

instance : IsTotal SlotAttachmentEntry slotAttachmentLe := by
  constructor
  intro a b
  unfold slotAttachmentLe
  rcases lt_trichotomy a.alpha b.alpha with h | h | h
  · exact Or.inl (Or.inl h)
  · rcases le_total a.slot b.slot with h2 | h2
    · exact Or.inl (Or.inr ⟨h, h2⟩)
    · exact Or.inr (Or.inr ⟨h.symm, h2⟩)
  · exact Or.inr (Or.inl h)

instance : IsTrans SlotAttachmentEntry slotAttachmentLe := by
  constructor
  intro a b c hab hbc
  unfold slotAttachmentLe at *
  rcases hab with h | ⟨he, hs⟩
  · rcases hbc with h2 | ⟨he2, _⟩
    · exact Or.inl (lt_trans h h2)
    · exact Or.inl (he2 ▸ h)
  · rcases hbc with h2 | ⟨he2, hs2⟩
    · exact Or.inl (he ▸ h2)
    · exact Or.inr ⟨he.trans he2, le_trans hs hs2⟩

theorem getD_foldl_set_attachments :
    ∀ (group : List SlotAttachmentEntry) (cur : List String) (slot : Nat),
    (∀ e ∈ group, 0 ≤ e.slot ∧ e.slot.toNat < cur.length) →
    (group.foldl (fun c e => c.set e.slot.toNat e.attachmentId) cur).getD slot "" =
      (match (group.filter (fun e => decide (e.slot = (slot : Int)))).getLast? with
       | some e => e.attachmentId
       | none => cur.getD slot "") := by
  intro group
  induction group with
  | nil => intro cur slot _; rfl
  | cons e g ih =>
      intro cur slot hb
      have hbe := hb e (List.mem_cons_self e g)
      have hbg : ∀ x ∈ g, 0 ≤ x.slot ∧
          x.slot.toNat < (cur.set e.slot.toNat e.attachmentId).length := by
        intro x hx
        have := hb x (List.mem_cons_of_mem e hx)
        rw [List.length_set]
        exact this
      rw [List.foldl_cons, ih _ slot hbg]
      by_cases hmatch : e.slot = (slot : Int)
      · rw [List.filter_cons_of_pos (by simpa using hmatch)]
        have hnat : e.slot.toNat = slot := by omega
        rcases hfg : g.filter (fun x => decide (x.slot = (slot : Int))) with _ | ⟨x, xs⟩
        · rw [hfg]
          show (cur.set e.slot.toNat e.attachmentId).getD slot "" = e.attachmentId
          rw [← hnat]
          exact getD_set_self2 _ _ _ _ hbe.2
        · rw [hfg, List.getLast?_cons_cons]
          cases hgl : (x :: xs).getLast? with
          | some e2 => rfl
          | none =>
              rw [List.getLast?_eq_none_iff] at hgl
              exact absurd hgl (by simp)
      · rw [List.filter_cons_of_neg (by simpa using hmatch)]
        cases hgl : (g.filter (fun x => decide (x.slot = (slot : Int)))).getLast? with
        | some e2 => rfl
        | none =>
            show (cur.set e.slot.toNat e.attachmentId).getD slot "" = cur.getD slot ""
            exact getD_set_ne2 _ _ _ _ _ (by omega)

theorem topStartGo_alpha (l : List SlotAttachmentEntry)
    (hmono : ∀ i j : Nat, i ≤ j → j < l.length →
      (l.getD i ⟨0, "", 0⟩).alpha ≤ (l.getD j ⟨0, "", 0⟩).alpha) :
    ∀ u : Nat, u < l.length → ∀ i : Nat, topStartGo l u ≤ i → i ≤ u →
      (l.getD i ⟨0, "", 0⟩).alpha = (l.getD u ⟨0, "", 0⟩).alpha := by
  intro u
  induction u with
  | zero =>
      intro _ i _ h2
      have : i = 0 := by omega
      subst this
      rfl
  | succ u ih =>
      intro hu i h1 h2
      by_cases hc : (l.getD u ⟨0, "", 0⟩).alpha < (l.getD (u + 1) ⟨0, "", 0⟩).alpha
      · rw [topStartGo, if_pos hc] at h1
        have : i = u + 1 := by omega
        subst this
        rfl
      · have heq : (l.getD u ⟨0, "", 0⟩).alpha = (l.getD (u + 1) ⟨0, "", 0⟩).alpha :=
          le_antisymm (hmono u (u + 1) (by omega) hu) (not_lt.mp hc)
        by_cases hi : i = u + 1
        · subst hi; rfl
        · rw [topStartGo, if_neg hc] at h1
          rw [ih (by omega) i h1 (by omega), heq]

theorem sorted_alpha_mono (l : List SlotAttachmentEntry)
    (hs : l.Sorted slotAttachmentLe) :
    ∀ i j : Nat, i ≤ j → j < l.length →
      (l.getD i ⟨0, "", 0⟩).alpha ≤ (l.getD j ⟨0, "", 0⟩).alpha := by
  intro i j hij hj
  by_cases he : i = j
  · subst he; exact le_refl _
  · have hi : i < l.length := by omega
    rw [List.getD_eq_getElem l _ hi, List.getD_eq_getElem l _ hj]
    have := (List.pairwise_iff_getElem.mp hs) i j hi hj (by omega)
    rcases this with h | ⟨h, _⟩
    · exact le_of_lt h
    · exact le_of_eq h

theorem topGroup_top_weight (entries : List SlotAttachmentEntry) :
    ∀ e ∈ topGroup entries, ∀ e2 ∈ entries, e2.alpha ≤ e.alpha := by
  intro e he e2 he2
  unfold topGroup at he
  set l := sortAttachments entries with hl
  have hs : l.Sorted slotAttachmentLe := List.sorted_insertionSort slotAttachmentLe entries
  have hmono := sorted_alpha_mono l hs
  -- entry of the top group: its index is at least topStart l
  obtain ⟨k, hk, hke⟩ := List.mem_iff_getElem.mp he
  rw [List.getElem_drop] at hke
  have hklen : topStart l + k < l.length := by
    rw [List.length_drop] at hk
    omega
  have hlast : (l.getD (topStart l + k) ⟨0, "", 0⟩).alpha =
      (l.getD (l.length - 1) ⟨0, "", 0⟩).alpha := by
    have hne : l.length ≠ 0 := by omega
    have hgo : topStartGo l (l.length - 1) ≤ topStart l + k := by
      have : topStart l = topStartGo l (l.length - 1) := rfl
      omega
    exact topStartGo_alpha l hmono (l.length - 1) (by omega) (topStart l + k) hgo (by omega)
  -- the other entry is somewhere in the sorted list
  have he2' : e2 ∈ l := ((List.perm_insertionSort slotAttachmentLe entries).mem_iff).mpr he2
  obtain ⟨m, hm, hme⟩ := List.mem_iff_getElem.mp he2'
  have h2 : (l.getD m ⟨0, "", 0⟩).alpha ≤ (l.getD (l.length - 1) ⟨0, "", 0⟩).alpha :=
    hmono m (l.length - 1) (by omega) (by omega)
  rw [List.getD_eq_getElem l _ hm, hme] at h2
  rw [List.getD_eq_getElem l _ hklen, hke] at hlast
  rw [← hlast] at h2
  exact h2

theorem mem_dropWhile_time_le (t0 : ℚ) :
    ∀ (l : List EventKF), l.Sorted (fun a b => a.time ≤ b.time) →
    ∀ e : EventKF,
      (e ∈ l.dropWhile (fun x => decide (x.time ≤ t0)) ↔ e ∈ l ∧ t0 < e.time) := by
  intro l
  induction l with
  | nil => intro _ e; simp
  | cons a l ih =>
      intro hs e
      have ha : ∀ b ∈ l, a.time ≤ b.time := List.rel_of_sorted_cons hs
      have hst : l.Sorted (fun a b => a.time ≤ b.time) := hs.of_cons
      by_cases hcond : a.time ≤ t0
      · rw [List.dropWhile_cons_of_pos (by simpa using hcond)]
        rw [ih hst e]
        constructor
        · rintro ⟨hm, ht⟩
          exact ⟨List.mem_cons_of_mem a hm, ht⟩
        · rintro ⟨hm, ht⟩
          rcases List.mem_cons.mp hm with rfl | hm2
          · exact absurd hcond (not_le.mpr ht)
          · exact ⟨hm2, ht⟩
      · rw [List.dropWhile_cons_of_neg (by simpa using hcond)]
        constructor
        · intro hm
          refine ⟨hm, ?_⟩
          rcases List.mem_cons.mp hm with rfl | hm2
          · exact not_le.mp hcond
          · have := ha e hm2
            have := not_le.mp hcond
            linarith
        · rintro ⟨hm, _⟩
          exact hm

theorem mem_takeWhile_time_le (t1 : ℚ) :
    ∀ (l : List EventKF), l.Sorted (fun a b => a.time ≤ b.time) →
    ∀ e : EventKF,
      (e ∈ l.takeWhile (fun x => decide (x.time ≤ t1)) ↔ e ∈ l ∧ e.time ≤ t1) := by
  intro l
  induction l with
  | nil => intro _ e; simp
  | cons a l ih =>
      intro hs e
      have ha : ∀ b ∈ l, a.time ≤ b.time := List.rel_of_sorted_cons hs
      have hst : l.Sorted (fun a b => a.time ≤ b.time) := hs.of_cons
      by_cases hcond : a.time ≤ t1
      · rw [List.takeWhile_cons_of_pos (by simpa using hcond)]
        constructor
        · intro hm
          rcases List.mem_cons.mp hm with rfl | hm2
          · exact ⟨List.mem_cons_self e l, hcond⟩
          · obtain ⟨hm3, ht⟩ := (ih hst e).mp hm2
            exact ⟨List.mem_cons_of_mem a hm3, ht⟩
        · rintro ⟨hm, ht⟩
          rcases List.mem_cons.mp hm with rfl | hm2
          · exact List.mem_cons_self e _
          · exact List.mem_cons_of_mem a ((ih hst e).mpr ⟨hm2, ht⟩)
      · rw [List.takeWhile_cons_of_neg (by simpa using hcond)]
        constructor
        · intro hm; exact absurd hm (List.not_mem_nil e)
        · rintro ⟨hm, ht⟩
          rcases List.mem_cons.mp hm with rfl | hm2
          · exact absurd ht hcond
          · have := ha e hm2
            have := not_le.mp hcond
            linarith

theorem getD_set_ne (l : List Int) (i j : Nat) (a : Int) (h : i ≠ j) :
    (l.set i a).getD j 0 = l.getD j 0 := by
  simp [List.getD_eq_getElem?_getD, List.getElem?_set_ne h]

theorem getD_set_self (l : List Int) (i : Nat) (a : Int) (h : i < l.length) :
    (l.set i a).getD i 0 = a := by
  simp [List.getD_eq_getElem?_getD, List.getElem?_set_eq_of_lt a h]

theorem getD_setDefaultDrawOrder (n s : Nat) (h : s < n) :
    (setDefaultDrawOrder n).getD s 0 = (s : Int) := by
  rw [setDefaultDrawOrder, List.getD_eq_getElem?_getD, List.getElem?_map,
    List.getElem?_range h]
  rfl

theorem length_setDefaultDrawOrder (n : Nat) : (setDefaultDrawOrder n).length = n := by
  rw [setDefaultDrawOrder, List.length_map, List.length_range]

theorem mem_setDefaultDrawOrder (n : Nat) (v : Int) :
    v ∈ setDefaultDrawOrder n ↔ 0 ≤ v ∧ v < (n : Int) := by
  rw [setDefaultDrawOrder, List.mem_map]
  constructor
  · rintro ⟨i, hi, rfl⟩
    rw [List.mem_range] at hi
    omega
  · rintro ⟨h0, hn⟩
    exact ⟨v.toNat, List.mem_range.mpr (by omega), by omega⟩

theorem nodup_setDefaultDrawOrder (n : Nat) : (setDefaultDrawOrder n).Nodup := by
  rw [setDefaultDrawOrder]
  exact (List.nodup_range n).map (fun a b h => by omega)

theorem markOffsets_length_fst :
    ∀ (off : List (Int × Int)) (dro scratch : List Int),
    (markOffsets off dro scratch).1.length = dro.length := by
  intro off
  induction off with
  | nil => intro dro scratch; rfl
  | cons q rest ih =>
      intro dro scratch
      simp [markOffsets, ih]

theorem markOffsets_length_snd :
    ∀ (off : List (Int × Int)) (dro scratch : List Int),
    (markOffsets off dro scratch).2.length = scratch.length := by
  intro off
  induction off with
  | nil => intro dro scratch; rfl
  | cons q rest ih =>
      intro dro scratch
      simp [markOffsets, ih]

theorem markOffsets_dro_other :
    ∀ (off : List (Int × Int)) (dro scratch : List Int) (c : Nat),
    (∀ p ∈ off, (p.1 + p.2).toNat ≠ c) →
    (markOffsets off dro scratch).1.getD c 0 = dro.getD c 0 := by
  intro off
  induction off with
  | nil => intro dro scratch c _; rfl
  | cons q rest ih =>
      intro dro scratch c h
      have hq : (q.1 + q.2).toNat ≠ c := h q (List.mem_cons_self q rest)
      have hrest : ∀ p ∈ rest, (p.1 + p.2).toNat ≠ c :=
        fun p hp => h p (List.mem_cons_of_mem q hp)
      simp only [markOffsets]
      rw [ih _ _ _ hrest, getD_set_ne _ _ _ _ hq]

theorem markOffsets_dro_target :
    ∀ (off : List (Int × Int)) (dro scratch : List Int) (p : Int × Int),
    (off.map (fun q => (q.1 + q.2).toNat)).Nodup →
    p ∈ off → (p.1 + p.2).toNat < dro.length →
    (markOffsets off dro scratch).1.getD (p.1 + p.2).toNat 0 = p.1 := by
  intro off
  induction off with
  | nil => intro dro scratch p _ hp; exact absurd hp (List.not_mem_nil p)
  | cons q rest ih =>
      intro dro scratch p hnd hp hlt
      simp only [List.map_cons, List.nodup_cons, List.mem_map] at hnd
      rcases List.mem_cons.mp hp with rfl | hpr
      · simp only [markOffsets]
        rw [markOffsets_dro_other rest _ _ _
          (fun r hr => fun he => hnd.1 ⟨r, hr, he⟩)]
        exact getD_set_self _ _ _ hlt
      · simp only [markOffsets]
        exact ih _ _ p hnd.2 hpr (by simpa using hlt)

theorem markOffsets_scratch_pres_neg :
    ∀ (off : List (Int × Int)) (dro scratch : List Int) (s : Nat),
    scratch.getD s 0 = -1 →
    (markOffsets off dro scratch).2.getD s 0 = -1 := by
  intro off
  induction off with
  | nil => intro dro scratch s h; exact h
  | cons q rest ih =>
      intro dro scratch s h
      simp only [markOffsets]
      apply ih
      by_cases he : q.1.toNat = s
      · subst he
        by_cases hb : q.1.toNat < scratch.length
        · exact getD_set_self _ _ _ hb
        · rw [List.set_eq_of_length_le (by omega)]
          exact h
      · rw [getD_set_ne _ _ _ _ he]; exact h

theorem markOffsets_scratch_marked :
    ∀ (off : List (Int × Int)) (dro scratch : List Int) (p : Int × Int),
    p ∈ off → p.1.toNat < scratch.length →
    (markOffsets off dro scratch).2.getD p.1.toNat 0 = -1 := by
  intro off
  induction off with
  | nil => intro dro scratch p hp; exact absurd hp (List.not_mem_nil p)
  | cons q rest ih =>
      intro dro scratch p hp hlt
      rcases List.mem_cons.mp hp with rfl | hpr
      · simp only [markOffsets]
        exact markOffsets_scratch_pres_neg rest _ _ _ (getD_set_self _ _ _ hlt)
      · simp only [markOffsets]
        exact ih _ _ p hpr (by simpa using hlt)

theorem markOffsets_scratch_unmarked :
    ∀ (off : List (Int × Int)) (dro scratch : List Int) (s : Nat),
    (∀ p ∈ off, p.1.toNat ≠ s) →
    (markOffsets off dro scratch).2.getD s 0 = scratch.getD s 0 := by
  intro off
  induction off with
  | nil => intro dro scratch s _; rfl
  | cons q rest ih =>
      intro dro scratch s h
      simp only [markOffsets]
      rw [ih _ _ _ (fun p hp => h p (List.mem_cons_of_mem q hp)),
        getD_set_ne _ _ _ _ (h q (List.mem_cons_self q rest))]

theorem restoreSkip_spec (sc1 : List Int) :
    ∀ (fuel : Nat) (sc : List Int) (j : Int),
    -1 ≤ j → (j + 1).toNat ≤ fuel → sc.length = sc1.length →
    (∀ s : Nat, (s : Int) ≤ j → sc.getD s 0 = sc1.getD s 0) →
    -1 ≤ (restoreSkip sc j fuel).2 ∧
    (restoreSkip sc j fuel).2 ≤ j ∧
    (restoreSkip sc j fuel).1.length = sc1.length ∧
    (∀ s : Nat, (s : Int) ≤ (restoreSkip sc j fuel).2 →
        (restoreSkip sc j fuel).1.getD s 0 = sc1.getD s 0) ∧
    (∀ s : Nat, (restoreSkip sc j fuel).2 < (s : Int) → (s : Int) ≤ j →
        sc1.getD s 0 < 0) ∧
    (0 ≤ (restoreSkip sc j fuel).2 →
        0 ≤ sc1.getD (restoreSkip sc j fuel).2.toNat 0) := by
  intro fuel
  induction fuel with
  | zero =>
      intro sc j hj hfuel hlen hagree
      have hj1 : j = -1 := by omega
      subst hj1
      simp only [restoreSkip]
      refine ⟨le_refl _, le_refl _, hlen, hagree, ?_, ?_⟩
      · intro s hs hs2; omega
      · intro h; omega
  | succ fuel ih =>
      intro sc j hj hfuel hlen hagree
      by_cases hcond : 0 ≤ j ∧ sc.getD j.toNat 0 < 0
      · have hstep : restoreSkip sc j (fuel + 1) =
            restoreSkip (sc.set j.toNat j) (j - 1) fuel := by
          simp only [restoreSkip, if_pos hcond]
        rw [hstep]
        have hagree2 : ∀ s : Nat, (s : Int) ≤ j - 1 →
            (sc.set j.toNat j).getD s 0 = sc1.getD s 0 := by
          intro s hs
          rw [getD_set_ne _ _ _ _ (by omega)]
          exact hagree s (by omega)
        have hmarked : sc1.getD j.toNat 0 < 0 := by
          rw [← hagree j.toNat (by omega)]
          exact hcond.2
        obtain ⟨h1, h2, h3, h4, h5, h6⟩ :=
          ih (sc.set j.toNat j) (j - 1) (by omega) (by omega)
            (by rw [List.length_set]; exact hlen) hagree2
        refine ⟨h1, by omega, h3, h4, ?_, h6⟩
        intro s hs hs2
        by_cases hsj : (s : Int) ≤ j - 1
        · exact h5 s hs hsj
        · have : (s : Int) = j := by omega
          rw [show s = j.toNat by omega]
          exact hmarked
      · have hstep : restoreSkip sc j (fuel + 1) = (sc, j) := by
          simp only [restoreSkip, if_neg hcond]
        rw [hstep]
        refine ⟨hj, le_refl _, hlen, hagree, ?_, ?_⟩
        · intro s hs hs2; omega
        · intro hj0
          have hj0' : 0 ≤ j := hj0
          have hsc : ¬ sc.getD j.toNat 0 < 0 := by
            intro hneg; exact hcond ⟨hj0', hneg⟩
          have := hagree j.toNat (by omega)
          show 0 ≤ sc1.getD (j : Int).toNat 0
          omega

theorem sweepLoop_cons (c : Nat) (cs : List Nat) (dro sc : List Int) (j : Int) :
    sweepLoop (c :: cs) dro sc j =
      if 0 ≤ dro.getD c 0 then
        sweepLoop cs dro (restoreStep sc j).1 (restoreStep sc j).2
      else
        sweepLoop cs (dro.set c (restoreStep sc j).2) (restoreStep sc j).1
          ((restoreStep sc j).2 - 1) := by
  cases h : restoreStep sc j with
  | mk sc2 j2 => simp only [sweepLoop, h]

theorem availSet_congr (sc1 : List Int) (n : Nat) (j j2 : Int)
    (hle : j2 ≤ j)
    (hmax : ∀ s : Nat, j2 < (s : Int) → (s : Int) ≤ j → sc1.getD s 0 < 0) :
    availSet sc1 n j = availSet sc1 n j2 := by
  unfold availSet
  apply Finset.filter_congr
  intro s _
  constructor
  · rintro ⟨hsj, hpos⟩
    refine ⟨?_, hpos⟩
    by_contra hgt
    exact absurd hpos (not_le.mpr (hmax s (by omega) hsj))
  · rintro ⟨hsj, hpos⟩
    exact ⟨by omega, hpos⟩

theorem availSet_insert (sc1 : List Int) (n : Nat) (j2 : Int)
    (h0 : 0 ≤ j2) (hn : j2 < (n : Int)) (hunm : 0 ≤ sc1.getD j2.toNat 0) :
    availSet sc1 n j2 = insert j2.toNat (availSet sc1 n (j2 - 1)) := by
  ext s
  simp only [availSet, Finset.mem_filter, Finset.mem_insert, Finset.mem_range]
  constructor
  · rintro ⟨hsn, hsj, hpos⟩
    by_cases he : s = j2.toNat
    · exact Or.inl he
    · exact Or.inr ⟨hsn, by omega, hpos⟩
  · rintro (he | ⟨hsn, hsj, hpos⟩)
    · subst he
      exact ⟨by omega, by omega, hunm⟩
    · exact ⟨hsn, by omega, hpos⟩

theorem availSet_not_mem (sc1 : List Int) (n : Nat) (j2 : Int) (h0 : 0 ≤ j2) :
    j2.toNat ∉ availSet sc1 n (j2 - 1) := by
  simp only [availSet, Finset.mem_filter, Finset.mem_range, not_and]
  intro _ h
  omega

theorem sweepLoop_spec (sc1 : List Int) (n : Nat) :
    ∀ (cells : List Nat) (dro sc : List Int) (j : Int),
    cells.Nodup → (∀ c ∈ cells, c < n) →
    dro.length = n → sc.length = sc1.length → sc1.length = n →
    -1 ≤ j → j < (n : Int) →
    (∀ s : Nat, (s : Int) ≤ j → sc.getD s 0 = sc1.getD s 0) →
    (availSet sc1 n j).card =
      (cells.filter (fun c => decide (dro.getD c 0 < 0))).length →
    (∀ c : Nat, c < n → dro.getD c 0 < (n : Int)) →
    (∀ c : Nat, c < n → 0 ≤ dro.getD c 0 →
        ¬(dro.getD c 0 ≤ j ∧ 0 ≤ sc1.getD (dro.getD c 0).toNat 0)) →
    (∀ c c2 : Nat, c < n → c2 < n → c ≠ c2 → 0 ≤ dro.getD c 0 → 0 ≤ dro.getD c2 0 →
        dro.getD c 0 ≠ dro.getD c2 0) →
    (∀ c : Nat, c < n → c ∉ cells → 0 ≤ dro.getD c 0) →
    ((sweepLoop cells dro sc j).1.length = n ∧
     (∀ c : Nat, c < n → 0 ≤ (sweepLoop cells dro sc j).1.getD c 0 ∧
        (sweepLoop cells dro sc j).1.getD c 0 < (n : Int)) ∧
     (∀ c c2 : Nat, c < n → c2 < n → c ≠ c2 →
        (sweepLoop cells dro sc j).1.getD c 0 ≠ (sweepLoop cells dro sc j).1.getD c2 0)) := by
  intro cells
  induction cells with
  | nil =>
      intro dro sc j _ _ hlen _ _ _ _ _ _ hval hfresh hnodup hfilled
      simp only [sweepLoop]
      refine ⟨hlen, ?_, ?_⟩
      · intro c hc
        exact ⟨hfilled c hc (List.not_mem_nil c), hval c hc⟩
      · intro c c2 hc hc2 hne
        exact hnodup c c2 hc hc2 hne (hfilled c hc (List.not_mem_nil c))
          (hfilled c2 hc2 (List.not_mem_nil c2))
  | cons c cs ih =>
      intro dro sc j hnd hlt hlen hsclen hsc1len hjlo hjhi hagree hcnt hval hfresh hnodup hfilled
      obtain ⟨hr1, hr2, hr3, hr4, hr5, hr6⟩ :=
        restoreSkip_spec sc1 (j + 1).toNat sc j hjlo (le_refl _) hsclen hagree
      have hre : restoreSkip sc j (j + 1).toNat = restoreStep sc j := rfl
      rw [hre] at hr1 hr2 hr3 hr4 hr5 hr6
      set sc2 := (restoreStep sc j).1 with hsc2
      set j2 := (restoreStep sc j).2 with hj2
      have havail : availSet sc1 n j = availSet sc1 n j2 :=
        availSet_congr sc1 n j j2 hr2 hr5
      have hcl : c < n := hlt c (List.mem_cons_self c cs)
      have hnd2 : cs.Nodup := (List.nodup_cons.mp hnd).2
      have hcnotin : c ∉ cs := (List.nodup_cons.mp hnd).1
      have hlt2 : ∀ x ∈ cs, x < n := fun x hx => hlt x (List.mem_cons_of_mem c hx)
      rw [sweepLoop_cons]
      by_cases hskip : 0 ≤ dro.getD c 0
      · rw [if_pos hskip]
        apply ih dro sc2 j2 hnd2 hlt2 hlen hr3 hsc1len hr1 (by omega) hr4
        · rw [← havail, hcnt, List.filter_cons_of_neg (by simpa using hskip)]
        · exact hval
        · intro c2 hc2 hpos
          intro ⟨ha, hb⟩
          exact hfresh c2 hc2 hpos ⟨by omega, hb⟩
        · exact hnodup
        · intro c2 hc2 hnotin
          by_cases he : c2 = c
          · subst he; exact hskip
          · exact hfilled c2 hc2 (by
              intro hmem
              rcases List.mem_cons.mp hmem with h | h
              · exact he h
              · exact hnotin h)
      · rw [if_neg hskip]
        -- the cell is unresolved: the avail count is positive, so j2 is a
        -- valid unmarked source index
        have hcnt2 : (availSet sc1 n j2).card =
            (cs.filter (fun x => decide (dro.getD x 0 < 0))).length + 1 := by
          rw [← havail, hcnt, List.filter_cons_of_pos (by simpa using hskip)]
          rfl
        have hpos_card : 0 < (availSet sc1 n j2).card := by omega
        obtain ⟨s0, hs0⟩ := Finset.card_pos.mp hpos_card
        have hj2pos : 0 ≤ j2 := by
          simp only [availSet, Finset.mem_filter, Finset.mem_range] at hs0
          omega
        have hunm : 0 ≤ sc1.getD j2.toNat 0 := hr6 hj2pos
        have hins := availSet_insert sc1 n j2 hj2pos (by omega) hunm
        have hnotmem := availSet_not_mem sc1 n j2 hj2pos
        have hcard2 : (availSet sc1 n (j2 - 1)).card =
            (cs.filter (fun x => decide (dro.getD x 0 < 0))).length := by
          have := Finset.card_insert_of_not_mem hnotmem
          rw [← hins, hcnt2] at this
          omega
        have hdro'len : (dro.set c j2).length = n := by
          rw [List.length_set]; exact hlen
        have hget_self : (dro.set c j2).getD c 0 = j2 :=
          getD_set_self _ _ _ (by omega)
        have hget_other : ∀ x : Nat, x ≠ c → (dro.set c j2).getD x 0 = dro.getD x 0 :=
          fun x hx => getD_set_ne _ _ _ _ (fun h => hx h.symm)
        apply ih (dro.set c j2) sc2 (j2 - 1) hnd2 hlt2 hdro'len hr3 hsc1len
          (by omega) (by omega) (fun s hs => hr4 s (by omega))
        · rw [hcard2]
          congr 1
          apply List.filter_congr
          intro x hx
          rw [hget_other x (fun he => hcnotin (he ▸ hx))]
        · intro c2 hc2
          by_cases he : c2 = c
          · subst he; rw [hget_self]; omega
          · rw [hget_other c2 he]; exact hval c2 hc2
        · intro c2 hc2 hpos
          by_cases he : c2 = c
          · subst he
            rw [hget_self]
            intro ⟨ha, _⟩
            omega
          · rw [hget_other c2 he] at hpos ⊢
            intro ⟨ha, hb⟩
            exact hfresh c2 hc2 hpos ⟨by omega, hb⟩
        · intro c2 c3 hc2 hc3 hne hpos2 hpos3
          by_cases he2 : c2 = c
          · subst he2
            rw [hget_self]
            rw [hget_other c3 (fun h => hne h.symm)] at hpos3 ⊢
            intro heq
            apply hfresh c3 hc3 hpos3
            rw [← heq]
            exact ⟨hr2, hunm⟩
          · by_cases he3 : c3 = c
            · subst he3
              rw [hget_self]
              rw [hget_other c2 he2] at hpos2 ⊢
              intro heq
              exact hfresh c2 hc2 hpos2 (by rw [heq]; exact ⟨hr2, hunm⟩)
            · rw [hget_other c2 he2] at hpos2 ⊢
              rw [hget_other c3 he3] at hpos3 ⊢
              exact hnodup c2 c3 hc2 hc3 hne hpos2 hpos3
        · intro c2 hc2 hnotin
          by_cases he : c2 = c
          · subst he; rw [hget_self]; exact hj2pos
          · rw [hget_other c2 he]
            exact hfilled c2 hc2 (by
              intro hmem
              rcases List.mem_cons.mp hmem with h | h
              · exact he h
              · exact hnotin h)

theorem perm_setDefault_of_bounds (l : List Int) (n : Nat) (hlen : l.length = n)
    (hval : ∀ c : Nat, c < n → 0 ≤ l.getD c 0 ∧ l.getD c 0 < (n : Int))
    (hinj : ∀ c c2 : Nat, c < n → c2 < n → c ≠ c2 → l.getD c 0 ≠ l.getD c2 0) :
    l.Perm (setDefaultDrawOrder n) := by
  have hget : ∀ i : Fin l.length, l.get i = l.getD i.1 0 := by
    intro i
    rw [List.getD_eq_getElem l 0 i.2, List.get_eq_getElem]
  have hnodup : l.Nodup := by
    rw [List.nodup_iff_injective_get]
    intro i j hij
    by_contra hne
    have hne2 : i.1 ≠ j.1 := fun h => hne (Fin.ext h)
    exact hinj i.1 j.1 (by omega) (by omega) hne2 (by rw [← hget i, ← hget j, hij])
  have hsub : ∀ v ∈ l, v ∈ setDefaultDrawOrder n := by
    intro v hv
    obtain ⟨i, hi⟩ := List.mem_iff_get.mp hv
    have := hval i.1 (by omega)
    rw [hget i] at hi
    rw [mem_setDefaultDrawOrder]
    omega
  have htnodup : (setDefaultDrawOrder n).Nodup := nodup_setDefaultDrawOrder n
  have hcard1 : l.toFinset.card = n := by
    rw [List.toFinset_card_of_nodup hnodup, hlen]
  have hcard2 : (setDefaultDrawOrder n).toFinset.card = n := by
    rw [List.toFinset_card_of_nodup htnodup, length_setDefaultDrawOrder]
  have hfsub : l.toFinset ⊆ (setDefaultDrawOrder n).toFinset := by
    intro v hv
    rw [List.mem_toFinset] at hv ⊢
    exact hsub v hv
  have hfeq : l.toFinset = (setDefaultDrawOrder n).toFinset :=
    Finset.eq_of_subset_of_card_le hfsub (by omega)
  exact List.perm_of_nodup_nodup_toFinset_eq hnodup htnodup hfeq

theorem drawOrderEvaluate_perm (n : Nat) (offsets : List (Int × Int))
    (H1 : ∀ p ∈ offsets, 0 ≤ p.1 ∧ p.1 < (n : Int) ∧ 0 ≤ p.1 + p.2 ∧ p.1 + p.2 < (n : Int))
    (H2 : (offsets.map Prod.fst).Nodup)
    (H3 : (offsets.map (fun p => p.1 + p.2)).Nodup) :
    (commitDrawOrder n (drawOrderEvaluate n offsets [])).Perm (setDefaultDrawOrder n) := by
  by_cases hoff : offsets = []
  · subst hoff
    rw [drawOrderEvaluate, if_pos rfl, commitDrawOrder, if_pos rfl]
  · -- the constructed draw order
    have hmark :
        drawOrderEvaluate n offsets [] =
          (sweepLoop (List.range n).reverse
            (markOffsets offsets (List.replicate n (-1 : Int)) (setDefaultDrawOrder n)).1
            (markOffsets offsets (List.replicate n (-1 : Int)) (setDefaultDrawOrder n)).2
            ((n : Int) - 1)).1 := by
      rw [drawOrderEvaluate, if_neg hoff]
    set dro0 := (markOffsets offsets (List.replicate n (-1 : Int)) (setDefaultDrawOrder n)).1
      with hdro0
    set sc1 := (markOffsets offsets (List.replicate n (-1 : Int)) (setDefaultDrawOrder n)).2
      with hsc1
    have hdlen : dro0.length = n := by
      rw [hdro0, markOffsets_length_fst, List.length_replicate]
    have hslen : sc1.length = n := by
      rw [hsc1, markOffsets_length_snd, length_setDefaultDrawOrder]
    have hbound1 : ∀ p ∈ offsets, p.1.toNat < n := by
      intro p hp; have := H1 p hp; omega
    have hbound2 : ∀ p ∈ offsets, (p.1 + p.2).toNat < n := by
      intro p hp; have := H1 p hp; omega
    have hoffnd : offsets.Nodup := H2.of_map
    have hinj1 : ∀ p ∈ offsets, ∀ q ∈ offsets, p.1 = q.1 → p = q :=
      List.inj_on_of_nodup_map H2
    have hinj2 : ∀ p ∈ offsets, ∀ q ∈ offsets, p.1 + p.2 = q.1 + q.2 → p = q :=
      List.inj_on_of_nodup_map H3
    have htnat : (offsets.map (fun q => (q.1 + q.2).toNat)).Nodup := by
      have : ∀ x ∈ offsets.map (fun p => p.1 + p.2),
          ∀ y ∈ offsets.map (fun p => p.1 + p.2), x.toNat = y.toNat → x = y := by
        intro x hx y hy hxy
        rw [List.mem_map] at hx hy
        obtain ⟨p, hp, rfl⟩ := hx
        obtain ⟨q, hq, rfl⟩ := hy
        have := H1 p hp
        have := H1 q hq
        omega
      have := List.Nodup.map_on this H3
      rwa [List.map_map] at this
    -- scratch characterization
    have hsc_marked : ∀ p ∈ offsets, sc1.getD p.1.toNat 0 = -1 := by
      intro p hp
      rw [hsc1]
      exact markOffsets_scratch_marked offsets _ _ p hp
        (by rw [length_setDefaultDrawOrder]; exact hbound1 p hp)
    have hsc_unmarked : ∀ s : Nat, s < n → (∀ p ∈ offsets, p.1.toNat ≠ s) →
        sc1.getD s 0 = (s : Int) := by
      intro s hs hnm
      rw [hsc1, markOffsets_scratch_unmarked offsets _ _ s hnm,
        getD_setDefaultDrawOrder n s hs]
    -- draw order characterization
    have hdro_target : ∀ p ∈ offsets, dro0.getD (p.1 + p.2).toNat 0 = p.1 := by
      intro p hp
      rw [hdro0]
      exact markOffsets_dro_target offsets _ _ p htnat hp
        (by rw [List.length_replicate]; exact hbound2 p hp)
    have hdro_other : ∀ c : Nat, c < n → (∀ p ∈ offsets, (p.1 + p.2).toNat ≠ c) →
        dro0.getD c 0 = -1 := by
      intro c hc hnm
      rw [hdro0, markOffsets_dro_other offsets _ _ c hnm, List.getD_eq_getElem?_getD,
        List.getElem?_replicate]
      simp [hc]
    -- counting: marked slots and marked targets both number offsets.length
    have hcard_slots :
        ((Finset.range n).filter (fun s => ∃ p ∈ offsets, p.1.toNat = s)).card
          = offsets.length := by
      have himg : (Finset.range n).filter (fun s => ∃ p ∈ offsets, p.1.toNat = s)
          = offsets.toFinset.image (fun p => p.1.toNat) := by
        ext s
        simp only [Finset.mem_filter, Finset.mem_range, Finset.mem_image,
          List.mem_toFinset]
        constructor
        · rintro ⟨_, p, hp, rfl⟩; exact ⟨p, hp, rfl⟩
        · rintro ⟨p, hp, rfl⟩; exact ⟨hbound1 p hp, p, hp, rfl⟩
      rw [himg, Finset.card_image_of_injOn, List.toFinset_card_of_nodup hoffnd]
      intro p hp q hq hpq
      rw [Finset.mem_coe, List.mem_toFinset] at hp hq
      have hpq2 : p.1.toNat = q.1.toNat := hpq
      have h1 := H1 p hp
      have h2 := H1 q hq
      exact hinj1 p hp q hq (by omega)
    have hcard_targets :
        ((Finset.range n).filter (fun c => ∃ p ∈ offsets, (p.1 + p.2).toNat = c)).card
          = offsets.length := by
      have himg : (Finset.range n).filter (fun c => ∃ p ∈ offsets, (p.1 + p.2).toNat = c)
          = offsets.toFinset.image (fun p => (p.1 + p.2).toNat) := by
        ext c
        simp only [Finset.mem_filter, Finset.mem_range, Finset.mem_image,
          List.mem_toFinset]
        constructor
        · rintro ⟨_, p, hp, rfl⟩; exact ⟨p, hp, rfl⟩
        · rintro ⟨p, hp, rfl⟩; exact ⟨hbound2 p hp, p, hp, rfl⟩
      rw [himg, Finset.card_image_of_injOn, List.toFinset_card_of_nodup hoffnd]
      intro p hp q hq hpq
      rw [Finset.mem_coe, List.mem_toFinset] at hp hq
      have hpq2 : (p.1 + p.2).toNat = (q.1 + q.2).toNat := hpq
      have h1 := H1 p hp
      have h2 := H1 q hq
      exact hinj2 p hp q hq (by omega)
    -- left side of the count invariant
    have havail : (availSet sc1 n ((n : Int) - 1)).card = n - offsets.length := by
      have he : availSet sc1 n ((n : Int) - 1)
          = (Finset.range n).filter (fun s => ¬ ∃ p ∈ offsets, p.1.toNat = s) := by
        unfold availSet
        apply Finset.filter_congr
        intro s hs
        rw [Finset.mem_range] at hs
        constructor
        · rintro ⟨_, hpos⟩
          intro ⟨p, hp, hps⟩
          rw [← hps] at hpos
          rw [hsc_marked p hp] at hpos
          omega
        · intro hnm
          refine ⟨by omega, ?_⟩
          rw [hsc_unmarked s hs (fun p hp hq => hnm ⟨p, hp, hq⟩)]
          omega
      rw [he]
      have := Finset.filter_card_add_filter_neg_card_eq_card
        (s := Finset.range n) (p := fun s => ∃ p ∈ offsets, p.1.toNat = s)
      rw [Finset.card_range] at this
      omega
    -- right side of the count invariant
    have hlistcnt :
        (((List.range n).reverse).filter (fun c => decide (dro0.getD c 0 < 0))).length
          = n - offsets.length := by
      rw [List.filter_reverse, List.length_reverse]
      have hnd := (List.nodup_range n).filter (p := fun c => decide (dro0.getD c 0 < 0))
      rw [← List.toFinset_card_of_nodup hnd, List.toFinset_filter]
      have hrng : (List.range n).toFinset = Finset.range n := by
        ext x
        rw [List.mem_toFinset, List.mem_range, Finset.mem_range]
      rw [hrng]
      have he : (Finset.range n).filter (fun c => decide (dro0.getD c 0 < 0))
          = (Finset.range n).filter (fun c => ¬ ∃ p ∈ offsets, (p.1 + p.2).toNat = c) := by
        apply Finset.filter_congr
        intro c hc
        rw [Finset.mem_range] at hc
        simp only [decide_eq_true_eq]
        constructor
        · intro hneg
          intro ⟨p, hp, hpc⟩
          rw [← hpc, hdro_target p hp] at hneg
          have := H1 p hp
          omega
        · intro hnm
          rw [hdro_other c hc (fun p hp hq => hnm ⟨p, hp, hq⟩)]
          omega
      rw [he]
      have := Finset.filter_card_add_filter_neg_card_eq_card
        (s := Finset.range n) (p := fun c => ∃ p ∈ offsets, (p.1 + p.2).toNat = c)
      rw [Finset.card_range] at this
      omega
    -- apply the sweep invariant
    obtain ⟨hfin_len, hfin_val, hfin_inj⟩ :=
      sweepLoop_spec sc1 n (List.range n).reverse dro0 sc1 ((n : Int) - 1)
        (by rw [List.nodup_reverse]; exact List.nodup_range n)
        (by intro c hc; rw [List.mem_reverse, List.mem_range] at hc; exact hc)
        hdlen rfl hslen
        (by
          have : 0 < n := by
            rcases offsets with _ | ⟨p, rest⟩
            · exact absurd rfl hoff
            · have := H1 p (List.mem_cons_self p rest); omega
          omega)
        (by omega)
        (fun s _ => rfl)
        (by rw [havail, hlistcnt])
        (by
          intro c hc
          by_cases ht : ∃ p ∈ offsets, (p.1 + p.2).toNat = c
          · obtain ⟨p, hp, rfl⟩ := ht
            rw [hdro_target p hp]
            have := H1 p hp; omega
          · rw [hdro_other c hc (fun p hp hq => ht ⟨p, hp, hq⟩)]; omega)
        (by
          intro c hc hpos
          by_cases ht : ∃ p ∈ offsets, (p.1 + p.2).toNat = c
          · obtain ⟨p, hp, rfl⟩ := ht
            rw [hdro_target p hp] at hpos ⊢
            intro ⟨_, habs⟩
            have hm := hsc_marked p hp
            have : p.1.toNat = (p.1).toNat := rfl
            rw [hm] at habs
            omega
          · rw [hdro_other c hc (fun p hp hq => ht ⟨p, hp, hq⟩)] at hpos
            omega)
        (by
          intro c c2 hc hc2 hne hpos hpos2
          by_cases ht : ∃ p ∈ offsets, (p.1 + p.2).toNat = c
          · by_cases ht2 : ∃ p ∈ offsets, (p.1 + p.2).toNat = c2
            · obtain ⟨p, hp, rfl⟩ := ht
              obtain ⟨q, hq, hqc⟩ := ht2
              rw [hdro_target p hp, ← hqc, hdro_target q hq]
              intro heq
              have hpq : p = q := hinj1 p hp q hq heq
              subst hpq
              exact hne hqc
            · rw [hdro_other c2 hc2 (fun p hp hq => ht2 ⟨p, hp, hq⟩)] at hpos2
              omega
          · rw [hdro_other c hc (fun p hp hq => ht ⟨p, hp, hq⟩)] at hpos
            omega)
        (by
          intro c hc hnotin
          exact absurd (by rw [List.mem_reverse, List.mem_range]; exact hc) hnotin)
    -- conclude
    have hperm := perm_setDefault_of_bounds _ n hfin_len hfin_val hfin_inj
    rw [hmark] at *
    have hne : (sweepLoop (List.range n).reverse dro0 sc1 ((n : Int) - 1)).1 ≠ [] := by
      intro habs
      have : 0 < n := by
        rcases offsets with _ | ⟨p, rest⟩
        · exact absurd rfl hoff
        · have := H1 p (List.mem_cons_self p rest); omega
      rw [habs] at hfin_len
      simp at hfin_len
      omega
    rw [commitDrawOrder, if_neg hne]
    exact hperm

/-- C1: For every draw-order keyframe offset list (well-formed: resolved slot
indices in range, distinct slots, distinct in-range target positions) and
every slot count N, after the draw-order evaluator runs and ApplyCache
commits, the draw order is a permutation of `[0 .. N)`; in particular with
4 slots and offsets `[(slot 1, offset +2)]` the committed order is
`[0, 2, 3, 1]`, and with an empty offset list the identity is committed. -/
theorem C1_draw_order_permutation :
    (∀ (n : Nat) (offsets : List (Int × Int)),
      (∀ p ∈ offsets, 0 ≤ p.1 ∧ p.1 < (n : Int) ∧ 0 ≤ p.1 + p.2 ∧ p.1 + p.2 < (n : Int)) →
      (offsets.map Prod.fst).Nodup →
      (offsets.map (fun p => p.1 + p.2)).Nodup →
      (commitDrawOrder n (drawOrderEvaluate n offsets [])).Perm (setDefaultDrawOrder n)) ∧
    commitDrawOrder 4 (drawOrderEvaluate 4 [(1, 2)] []) = [0, 2, 3, 1] ∧
    commitDrawOrder 4 (drawOrderEvaluate 4 [] []) = [0, 1, 2, 3] := by
  refine ⟨drawOrderEvaluate_perm, by decide, by decide⟩

/-- C1 witness: the general permutation statement instantiated at the
4-slot, `[(1, +2)]` scenario, with each hypothesis discharged concretely. -/
theorem C1_draw_order_permutation_witness :
    (∀ p ∈ [((1 : Int), (2 : Int))],
      0 ≤ p.1 ∧ p.1 < (4 : Int) ∧ 0 ≤ p.1 + p.2 ∧ p.1 + p.2 < (4 : Int)) ∧
    (commitDrawOrder 4 (drawOrderEvaluate 4 [(1, 2)] [])).Perm (setDefaultDrawOrder 4) :=
  ⟨by decide, C1_draw_order_permutation.1 4 [(1, 2)] (by decide) (by decide) (by decide)⟩

/-- C2: for every event timeline (nonempty, time-sorted keyframes) and every
`EvaluateRange(t0, t1, w)` call with `w` at or above the event mix threshold,
an event is dispatched iff its time lies in `(t0, t1]`, except that when
`t0 = 0` and the first keyframe time is `0` the range becomes `[0, t1]`;
below the threshold nothing is dispatched. -/
theorem C2_event_range_exactness :
    ∀ (events : List EventKF) (threshold t0 t1 alpha : ℚ)
      (hne : events ≠ []),
      events.Sorted (fun a b => a.time ≤ b.time) →
    ((threshold ≤ alpha →
      ∀ e : EventKF,
        (e ∈ eventEvaluateRange events threshold t0 t1 alpha ↔
          e ∈ events ∧
            ((t0 < e.time ∧ e.time ≤ t1) ∨
             (t0 = 0 ∧ (events.head hne).time = 0 ∧ 0 ≤ e.time ∧ e.time ≤ t1)))) ∧
     (alpha < threshold → eventEvaluateRange events threshold t0 t1 alpha = [])) := by
  intro events threshold t0 t1 alpha hne hs
  constructor
  · intro halpha e
    rw [eventEvaluateRange, if_neg (not_lt.mpr halpha)]
    by_cases hc : t0 ≠ 0 ∨ events.head?.map EventKF.time ≠ some 0
    · rw [if_pos hc]
      have hds : (events.dropWhile (fun x => decide (x.time ≤ t0))).Sorted
          (fun a b => a.time ≤ b.time) :=
        List.Pairwise.sublist (List.dropWhile_sublist _) hs
      rw [mem_takeWhile_time_le t1 _ hds e, mem_dropWhile_time_le t0 events hs e]
      have hspecial : ¬(t0 = 0 ∧ (events.head hne).time = 0) := by
        rcases hc with h | h
        · exact fun hh => h hh.1
        · intro hh
          apply h
          rw [List.head?_eq_head hne]
          simp [hh.2]
      constructor
      · rintro ⟨⟨hm, hgt⟩, hle⟩
        exact ⟨hm, Or.inl ⟨hgt, hle⟩⟩
      · rintro ⟨hm, h | h⟩
        · exact ⟨⟨hm, h.1⟩, h.2⟩
        · exact absurd ⟨h.1, h.2.1⟩ hspecial
    · rw [if_neg hc]
      push_neg at hc
      obtain ⟨h0, hh⟩ := hc
      have hhead : (events.head hne).time = 0 := by
        rw [List.head?_eq_head hne] at hh
        simpa using hh
      rw [mem_takeWhile_time_le t1 events hs e]
      constructor
      · rintro ⟨hm, hle⟩
        refine ⟨hm, Or.inr ⟨h0, hhead, ?_, hle⟩⟩
        rcases events with _ | ⟨a, l⟩
        · exact absurd rfl hne
        · have ha : a.time = 0 := by simpa using hhead
          rcases List.mem_cons.mp hm with rfl | hm2
          · rw [ha]
          · have := List.rel_of_sorted_cons hs e hm2
            linarith
      · rintro ⟨hm, h | h⟩
        · exact ⟨hm, h.2⟩
        · exact ⟨hm, h.2.2.2⟩
  · intro halpha
    rw [eventEvaluateRange, if_pos halpha]

/-- C2 witness: scenario S5 of the spec (times scaled to integers) - events
at times 0, 1, 2 with a call `evaluate_range(0, 1, 1)` at threshold 0; the
event at time 1 is dispatched (and the sortedness hypothesis holds
concretely). -/
theorem C2_event_range_exactness_witness :
    ([⟨0, "e0", 0, 0, ""⟩, ⟨1, "e1", 0, 0, ""⟩, ⟨2, "e2", 0, 0, ""⟩] :
        List EventKF).Sorted (fun a b => a.time ≤ b.time) ∧
    (⟨1, "e1", 0, 0, ""⟩ : EventKF) ∈
      eventEvaluateRange
        [⟨0, "e0", 0, 0, ""⟩, ⟨1, "e1", 0, 0, ""⟩, ⟨2, "e2", 0, 0, ""⟩]
        0 0 1 1 :=
  ⟨by decide,
   ((C2_event_range_exactness
      [⟨0, "e0", 0, 0, ""⟩, ⟨1, "e1", 0, 0, ""⟩, ⟨2, "e2", 0, 0, ""⟩]
      0 0 1 1 (by decide) (by decide)).1 (by decide)
      ⟨1, "e1", 0, 0, ""⟩).mpr (by decide)⟩

/-- C3: an attachment evaluator contributes nothing when blendDiscrete is
false and its weight is not 1; at commit the cache entries are sorted by
weight, every slot appearing in the contiguous top-weight group receives
the attachment id of its last entry in that group, and every other slot is
reset to the Definition default; the applied group carries the maximal
weight. With entries A (weight 0.3) and B (weight 0.7) on slot 0 the
committed id is B; with equal top weights the last entry of the group wins. -/
theorem C3_attachment_top_weight :
    (∀ (kfs : List KeyFrameAttachment) (slot : Int) (t alpha : ℚ)
        (cache : List SlotAttachmentEntry),
      alpha ≠ 1 →
      slotAttachmentEvaluate kfs slot t alpha false cache = cache) ∧
    (∀ (defaults current : List String) (entries : List SlotAttachmentEntry)
        (slot : Nat),
      slot < defaults.length → current.length = defaults.length →
      (∀ e ∈ entries, 0 ≤ e.slot ∧ e.slot < (defaults.length : Int)) →
      (commitAttachments defaults current entries).getD slot "" =
        (match ((topGroup entries).filter
            (fun e => decide (e.slot = (slot : Int)))).getLast? with
         | some e => e.attachmentId
         | none => defaults.getD slot "")) ∧
    (∀ (entries : List SlotAttachmentEntry),
      ∀ e ∈ topGroup entries, ∀ e2 ∈ entries, e2.alpha ≤ e.alpha) ∧
    commitAttachments ["default"] ["default"] [⟨3/10, "A", 0⟩, ⟨7/10, "B", 0⟩] = ["B"] ∧
    commitAttachments ["default"] ["default"] [⟨7/10, "A", 0⟩, ⟨7/10, "B", 0⟩] = ["B"] := by
  refine ⟨?_, ?_, fun entries => topGroup_top_weight entries, ?_, ?_⟩
  · intro kfs slot t alpha cache halpha
    cases kfs with
    | nil => rfl
    | cons k0 rest =>
        simp only [slotAttachmentEvaluate]
        by_cases ht : t < k0.time
        · rw [if_pos ht]
        · rw [if_neg ht, if_pos (by exact ⟨by simp, halpha⟩)]
  · intro defaults current entries slot hslot hlen hbnd
    unfold commitAttachments
    rw [getD_map_range _ _ _ _ hslot]
    by_cases hmem : (slot : Int) ∈ (topGroup entries).map SlotAttachmentEntry.slot
    · rw [if_pos hmem]
      have hbg : ∀ e ∈ topGroup entries, 0 ≤ e.slot ∧ e.slot.toNat < current.length := by
        intro e he
        have h1 : e ∈ sortAttachments entries := List.mem_of_mem_drop he
        have he2 : e ∈ entries :=
          ((List.perm_insertionSort slotAttachmentLe entries).mem_iff).mp h1
        have := hbnd e he2
        omega
      rw [getD_foldl_set_attachments _ _ _ hbg]
      cases hgl : ((topGroup entries).filter
          (fun e => decide (e.slot = (slot : Int)))).getLast? with
      | some e => rfl
      | none =>
          rw [List.getLast?_eq_none_iff] at hgl
          obtain ⟨e, he, hes⟩ := List.mem_map.mp hmem
          have hin : e ∈ (topGroup entries).filter
              (fun e => decide (e.slot = (slot : Int))) :=
            List.mem_filter.mpr ⟨he, by simpa using hes⟩
          rw [hgl] at hin
          exact absurd hin (List.not_mem_nil e)
    · rw [if_neg hmem]
      have hfe : (topGroup entries).filter (fun e => decide (e.slot = (slot : Int))) = [] := by
        rw [List.filter_eq_nil_iff]
        intro e he hes
        exact hmem (List.mem_map.mpr ⟨e, he, by simpa using hes⟩)
      rw [hfe]
      rfl
  · norm_num [commitAttachments, topGroup, sortAttachments, topStart, topStartGo,
      List.insertionSort, List.orderedInsert, slotAttachmentLe, List.range_succ]
  · norm_num [commitAttachments, topGroup, sortAttachments, topStart, topStartGo,
      List.insertionSort, List.orderedInsert, slotAttachmentLe, List.range_succ]

/-- C3 witness: the skip rule and the per-slot commit rule applied at
concrete inputs (integer-valued weights 3 and 7 on slot 0), discharging
every hypothesis there. -/
theorem C3_attachment_top_weight_witness :
    ((2 : ℚ) ≠ 1 ∧
      slotAttachmentEvaluate [⟨0, "A"⟩] 0 0 2 false [] = []) ∧
    ((0 : Nat) < (["d"] : List String).length ∧
      (commitAttachments ["d"] ["c"] [⟨3, "A", 0⟩, ⟨7, "B", 0⟩]).getD 0 "" =
        (match ((topGroup [⟨3, "A", 0⟩, ⟨7, "B", 0⟩]).filter
            (fun e => decide (e.slot = ((0 : Nat) : Int)))).getLast? with
         | some e => e.attachmentId
         | none => (["d"] : List String).getD 0 "")) :=
  ⟨⟨by norm_num,
    C3_attachment_top_weight.1 [⟨0, "A"⟩] 0 0 2 [] (by norm_num)⟩,
   ⟨by decide,
    C3_attachment_top_weight.2.1 ["d"] ["c"] [⟨3, "A", 0⟩, ⟨7, "B", 0⟩] 0
      (by decide) (by decide) (by decide)⟩⟩

theorem accumCommon_self {α : Type} [Add α] (m : Int → Option α) (i : Int) (v : α) :
    accumCommon m i v i = some (match m i with | none => v | some x => x + v) := by
  unfold accumCommon
  rw [if_pos rfl]

theorem accumCommon_other {α : Type} [Add α] (m : Int → Option α) (i k : Int) (v : α)
    (h : k ≠ i) : accumCommon m i v k = m k := by
  unfold accumCommon
  rw [if_neg h]

theorem accumCommon_comm {α : Type} [AddCommSemigroup α] (m : Int → Option α)
    (i i2 : Int) (v v2 : α) :
    accumCommon (accumCommon m i v) i2 v2 = accumCommon (accumCommon m i2 v2) i v := by
  funext k
  by_cases hk2 : k = i2 <;> by_cases hk1 : k = i
  · subst hk1
    subst hk2
    rw [accumCommon_self, accumCommon_self, accumCommon_self, accumCommon_self]
    cases m k with
    | none => simp [add_comm]
    | some x => simp [add_assoc, add_comm v v2]
  · subst hk2
    rw [accumCommon_self, accumCommon_other m i k v hk1,
      accumCommon_other _ i k v hk1, accumCommon_self]
  · subst hk1
    rw [accumCommon_other _ i2 k v2 hk2, accumCommon_self,
      accumCommon_self, accumCommon_other m i2 k v2 hk2]
  · rw [accumCommon_other _ i2 k v2 hk2,
      accumCommon_other _ i k v hk1,
      accumCommon_other _ i k v hk1,
      accumCommon_other _ i2 k v2 hk2]

theorem runCmd_comm (s : Cache) (c c2 : Cmd)
    (h : c.additive) (h2 : c2.additive) :
    runCmd (runCmd s c) c2 = runCmd (runCmd s c2) c := by
  cases c <;> cases c2 <;>
    first
      | exact h.elim
      | exact h2.elim
      | rfl
      | (simp only [runCmd]; rw [accumCommon_comm])

theorem runCmd_runCmds_comm (s : Cache) (c : Cmd) (l : List Cmd)
    (hc : c.additive) (hl : ∀ x ∈ l, x.additive) :
    runCmds (runCmd s c) l = runCmd (runCmds s l) c := by
  induction l generalizing s with
  | nil => rfl
  | cons x xs ih =>
      show runCmds (runCmd (runCmd s c) x) xs = runCmd (runCmds (runCmd s x) xs) c
      rw [runCmd_comm s c x hc (hl x (List.mem_cons_self x xs))]
      exact ih (runCmd s x) (fun y hy => hl y (List.mem_cons_of_mem x hy))

theorem runCmds_comm (s : Cache) (l1 l2 : List Cmd)
    (h1 : ∀ x ∈ l1, x.additive) (h2 : ∀ x ∈ l2, x.additive) :
    runCmds (runCmds s l1) l2 = runCmds (runCmds s l2) l1 := by
  induction l1 generalizing s with
  | nil => rfl
  | cons x xs ih =>
      show runCmds (runCmds (runCmd s x) xs) l2 = runCmds (runCmds s l2) (x :: xs)
      rw [ih (runCmd s x) (fun y hy => h1 y (List.mem_cons_of_mem x hy))]
      show runCmds (runCmds (runCmd s x) l2) xs = runCmds (runCmd (runCmds s l2) x) xs
      rw [runCmd_runCmds_comm s x l2 (h1 x (List.mem_cons_self x xs)) h2]

/-- C5 (amended): evaluator writes to the additive keyed accumulator
channels (rotation, translation, scale, shear, color, two-color, IK, path,
transform) commute - for any two blocks of such writes and either order,
the instance state after ApplyCache is identical. The discrete channels
are excluded: the slot-attachment push list and the draw-order overwrite
are order-sensitive (see the counterexample). -/
theorem C5_cache_commutativity :
    ∀ (d : DefnData) (cur : InstanceState) (l1 l2 : List Cmd),
    (∀ x ∈ l1, x.additive) → (∀ x ∈ l2, x.additive) →
    applyCache d cur (runCmds (runCmds emptyCache l1) l2) =
      applyCache d cur (runCmds (runCmds emptyCache l2) l1) := by
  intro d cur l1 l2 h1 h2
  exact congrArg (applyCache d cur) (runCmds_comm emptyCache l1 l2 h1 h2)

/-- C5 counterexample: two slot-attachment evaluator writes with equal
weight on the same slot but different attachment ids commit differently
depending on call order, so the claim as stated (order independence of
every channel, including the slot-attachment channel) is false. -/
theorem C5_cache_commutativity_counterexample :
    applyCache ⟨[], [⟨"d", (0, 0, 0, 0)⟩], [], [], []⟩
        ⟨[0], [⟨"d", (0, 0, 0, 0)⟩], [], [], [], []⟩
        (runCmds emptyCache
          [.accumSlotAttachment 0 "A" 1, .accumSlotAttachment 0 "B" 1]) ≠
      applyCache ⟨[], [⟨"d", (0, 0, 0, 0)⟩], [], [], []⟩
        ⟨[0], [⟨"d", (0, 0, 0, 0)⟩], [], [], [], []⟩
        (runCmds emptyCache
          [.accumSlotAttachment 0 "B" 1, .accumSlotAttachment 0 "A" 1]) := by
  decide

/-- C5 witness: the amended commutativity applied to two concrete additive
writes (a rotation and a translation on bone 0), discharging the
additivity hypotheses concretely. -/
theorem C5_cache_commutativity_witness :
    (∀ x ∈ [Cmd.accumRotation 0 10], x.additive) ∧
    applyCache ⟨[⟨-1, 0, 0, 0, 1, 1, 0, 0, 0, .normal⟩], [], [], [], []⟩
        ⟨[], [], [], [], [], [⟨0, 0, 0, 1, 1, 0, 0⟩]⟩
        (runCmds (runCmds emptyCache [Cmd.accumRotation 0 10])
          [Cmd.accumPosition 0 (1, 2)]) =
      applyCache ⟨[⟨-1, 0, 0, 0, 1, 1, 0, 0, 0, .normal⟩], [], [], [], []⟩
        ⟨[], [], [], [], [], [⟨0, 0, 0, 1, 1, 0, 0⟩]⟩
        (runCmds (runCmds emptyCache [Cmd.accumPosition 0 (1, 2)])
          [Cmd.accumRotation 0 10]) :=
  ⟨by
      intro x hx
      rcases List.mem_singleton.mp hx with rfl
      exact trivial,
   C5_cache_commutativity _ _ [Cmd.accumRotation 0 10] [Cmd.accumPosition 0 (1, 2)]
     (by
      intro x hx
      rcases List.mem_singleton.mp hx with rfl
      exact trivial)
     (by
      intro x hx
      rcases List.mem_singleton.mp hx with rfl
      exact trivial)⟩

/-- C8: IK timeline boolean parameters (bendPositive, compress, stretch)
are interpolated as the floats 0 / 1 minus the rest-pose value and
weighted; at the IK commit of ApplyCache each committed boolean equals
whether the rest-pose value (as 0 or 1) plus the accumulated delta is at
least one half. -/
theorem C8_ik_boolean_lerp :
    ∀ (base : IkDef) (k0 k1 : KeyFrameIk) (fT fAlpha : ℚ),
    (ikEvaluate base k0 k1 fT fAlpha).bendPositive =
      (lerp (boolToQ k0.bendPositive) (boolToQ k1.bendPositive) fT -
        boolToQ base.bendPositive) * fAlpha ∧
    (ikEvaluate base k0 k1 fT fAlpha).compress =
      (lerp (boolToQ k0.compress) (boolToQ k1.compress) fT -
        boolToQ base.compress) * fAlpha ∧
    (ikEvaluate base k0 k1 fT fAlpha).stretch =
      (lerp (boolToQ k0.stretch) (boolToQ k1.stretch) fT -
        boolToQ base.stretch) * fAlpha ∧
    ((commitIk base (some (ikEvaluate base k0 k1 fT fAlpha))).bendPositive = true ↔
      boolToQ base.bendPositive +
        (lerp (boolToQ k0.bendPositive) (boolToQ k1.bendPositive) fT -
          boolToQ base.bendPositive) * fAlpha ≥ 1 / 2) ∧
    ((commitIk base (some (ikEvaluate base k0 k1 fT fAlpha))).compress = true ↔
      boolToQ base.compress +
        (lerp (boolToQ k0.compress) (boolToQ k1.compress) fT -
          boolToQ base.compress) * fAlpha ≥ 1 / 2) ∧
    ((commitIk base (some (ikEvaluate base k0 k1 fT fAlpha))).stretch = true ↔
      boolToQ base.stretch +
        (lerp (boolToQ k0.stretch) (boolToQ k1.stretch) fT -
          boolToQ base.stretch) * fAlpha ≥ 1 / 2) := by
  intro base k0 k1 fT fAlpha
  refine ⟨rfl, rfl, rfl, ?_, ?_, ?_⟩ <;>
    simp [commitIk, floatToBool, ikEvaluate, lerpBoolean, ge_iff_le]


/-
  ---------------------------------------------------------------------------
  C4: rest pose of a newly constructed instance.
  ---------------------------------------------------------------------------
-/

theorem getD_map_boneStateOf (defs : List BoneDef) (i : Nat) (h : i < defs.length) :
    (defs.map boneStateOf).getD i ⟨0, 0, 0, 1, 1, 0, 0⟩ =
      boneStateOf (defs.getD i ⟨-1, 0, 0, 0, 1, 1, 0, 0, 0, .normal⟩) := by
  rw [List.getD_eq_getElem _ _ (by simpa using h), List.getElem_map,
      List.getD_eq_getElem _ _ h]

theorem internalPoseBone_normal (fns : RealFns) (bones : List BoneDef)
    (palette : List Matrix2x3) (iBone : Nat) (px py rot sx sy shx shy : ℚ)
    (h : (bones.getD iBone ⟨-1, 0, 0, 0, 1, 1, 0, 0, 0, .normal⟩).mode = TransformMode.normal) :
    internalPoseBone fns bones palette iBone px py rot sx sy shx shy =
      palette.set iBone
        (mulM (palette.getD (bones.getD iBone ⟨-1, 0, 0, 0, 1, 1, 0, 0, 0, .normal⟩).parent.toNat idMatrix2x3)
          (computeWorldTransform fns px py rot sx sy shx shy)) := by
  unfold internalPoseBone
  dsimp only
  rw [h]

theorem specRestPose_fuel_stable (fns : RealFns) (defs : List BoneDef)
    (hpar : ∀ i : Nat, i < defs.length →
      (defs.getD i ⟨-1, 0, 0, 0, 1, 1, 0, 0, 0, .normal⟩).parent < (i : Int)) :
    ∀ i : Nat, i < defs.length → ∀ f1 f2 : Nat, i ≤ f1 → i ≤ f2 →
      specRestPose fns defs f1 i = specRestPose fns defs f2 i := by
  intro i
  induction i using Nat.strong_induction_on with
  | _ i ih =>
    intro hi f1 f2 h1 h2
    match f1, f2 with
    | 0, 0 => rfl
    | 0, f2 + 1 =>
      have hi0 : i = 0 := Nat.le_zero.mp h1
      subst hi0
      have hp : (defs.getD 0 ⟨-1, 0, 0, 0, 1, 1, 0, 0, 0, .normal⟩).parent < 0 := by
        exact_mod_cast hpar 0 hi
      simp only [specRestPose]
      rw [if_pos hp]
    | f1 + 1, 0 =>
      have hi0 : i = 0 := Nat.le_zero.mp h2
      subst hi0
      have hp : (defs.getD 0 ⟨-1, 0, 0, 0, 1, 1, 0, 0, 0, .normal⟩).parent < 0 := by
        exact_mod_cast hpar 0 hi
      simp only [specRestPose]
      rw [if_pos hp]
    | f1 + 1, f2 + 1 =>
      simp only [specRestPose]
      by_cases hp : (defs.getD i ⟨-1, 0, 0, 0, 1, 1, 0, 0, 0, .normal⟩).parent < 0
      · rw [if_pos hp, if_pos hp]
      · rw [if_neg hp, if_neg hp]
        have hplt := hpar i hi
        have hple : (defs.getD i ⟨-1, 0, 0, 0, 1, 1, 0, 0, 0, .normal⟩).parent.toNat < i := by
          omega
        have := ih _ hple (lt_trans hple hi) f1 f2 (by omega) (by omega)
        rw [this]

theorem poseFold_spec (fns : RealFns) (defs : List BoneDef)
    (hmode : ∀ i : Nat, i < defs.length →
      (defs.getD i ⟨-1, 0, 0, 0, 1, 1, 0, 0, 0, .normal⟩).mode = TransformMode.normal)
    (hpar : ∀ i : Nat, i < defs.length →
      (defs.getD i ⟨-1, 0, 0, 0, 1, 1, 0, 0, 0, .normal⟩).parent < (i : Int))
    (hpar2 : ∀ i : Nat, 0 < i → i < defs.length →
      0 ≤ (defs.getD i ⟨-1, 0, 0, 0, 1, 1, 0, 0, 0, .normal⟩).parent)
    (hn : 0 < defs.length) :
    ∀ k : Nat, k ≤ defs.length - 1 →
      ((List.range' 1 k).foldl
        (fun pal i => internalPoseBoneState fns defs (defs.map boneStateOf) pal i)
        ((List.replicate defs.length idMatrix2x3).set 0
          (computeWorldTransform fns
            ((defs.map boneStateOf).getD 0 ⟨0, 0, 0, 1, 1, 0, 0⟩).px
            ((defs.map boneStateOf).getD 0 ⟨0, 0, 0, 1, 1, 0, 0⟩).py
            ((defs.map boneStateOf).getD 0 ⟨0, 0, 0, 1, 1, 0, 0⟩).rot
            ((defs.map boneStateOf).getD 0 ⟨0, 0, 0, 1, 1, 0, 0⟩).sx
            ((defs.map boneStateOf).getD 0 ⟨0, 0, 0, 1, 1, 0, 0⟩).sy
            ((defs.map boneStateOf).getD 0 ⟨0, 0, 0, 1, 1, 0, 0⟩).shx
            ((defs.map boneStateOf).getD 0 ⟨0, 0, 0, 1, 1, 0, 0⟩).shy))).length
        = defs.length ∧
      ∀ i : Nat, i ≤ k → i < defs.length →
        ((List.range' 1 k).foldl
          (fun pal i => internalPoseBoneState fns defs (defs.map boneStateOf) pal i)
          ((List.replicate defs.length idMatrix2x3).set 0
            (computeWorldTransform fns
              ((defs.map boneStateOf).getD 0 ⟨0, 0, 0, 1, 1, 0, 0⟩).px
              ((defs.map boneStateOf).getD 0 ⟨0, 0, 0, 1, 1, 0, 0⟩).py
              ((defs.map boneStateOf).getD 0 ⟨0, 0, 0, 1, 1, 0, 0⟩).rot
              ((defs.map boneStateOf).getD 0 ⟨0, 0, 0, 1, 1, 0, 0⟩).sx
              ((defs.map boneStateOf).getD 0 ⟨0, 0, 0, 1, 1, 0, 0⟩).sy
              ((defs.map boneStateOf).getD 0 ⟨0, 0, 0, 1, 1, 0, 0⟩).shx
              ((defs.map boneStateOf).getD 0 ⟨0, 0, 0, 1, 1, 0, 0⟩).shy))).getD i idMatrix2x3
          = specRestPose fns defs i i := by
  intro k
  induction k with
  | zero =>
    intro _
    constructor
    · simp
    · intro i hik hin
      have hi0 : i = 0 := Nat.le_zero.mp hik
      subst hi0
      rw [List.range'_zero, List.foldl_nil,
          getD_set_self2 _ _ _ _ (by simpa using hn),
          getD_map_boneStateOf defs 0 hn]
      rfl
  | succ k ihk =>
    intro hk1
    have hk : k ≤ defs.length - 1 := by omega
    obtain ⟨hlen, hfill⟩ := ihk hk
    have hrc : List.range' 1 (k + 1) = List.range' 1 k ++ [1 + 1 * k] :=
      List.range'_concat 1 k
    have h1k : 1 + 1 * k = k + 1 := by omega
    rw [h1k] at hrc
    rw [hrc, List.foldl_append, List.foldl_cons, List.foldl_nil]
    set palK := (List.range' 1 k).foldl
      (fun pal i => internalPoseBoneState fns defs (defs.map boneStateOf) pal i)
      ((List.replicate defs.length idMatrix2x3).set 0
        (computeWorldTransform fns
          ((defs.map boneStateOf).getD 0 ⟨0, 0, 0, 1, 1, 0, 0⟩).px
          ((defs.map boneStateOf).getD 0 ⟨0, 0, 0, 1, 1, 0, 0⟩).py
          ((defs.map boneStateOf).getD 0 ⟨0, 0, 0, 1, 1, 0, 0⟩).rot
          ((defs.map boneStateOf).getD 0 ⟨0, 0, 0, 1, 1, 0, 0⟩).sx
          ((defs.map boneStateOf).getD 0 ⟨0, 0, 0, 1, 1, 0, 0⟩).sy
          ((defs.map boneStateOf).getD 0 ⟨0, 0, 0, 1, 1, 0, 0⟩).shx
          ((defs.map boneStateOf).getD 0 ⟨0, 0, 0, 1, 1, 0, 0⟩).shy)) with hpalK
    have hkn : k + 1 < defs.length := by omega
    have hmodeK := hmode (k + 1) hkn
    have hrw : internalPoseBoneState fns defs (defs.map boneStateOf) palK (k + 1) =
        palK.set (k + 1)
          (mulM (palK.getD (defs.getD (k + 1) ⟨-1, 0, 0, 0, 1, 1, 0, 0, 0, .normal⟩).parent.toNat idMatrix2x3)
            (computeWorldTransform fns
              ((defs.map boneStateOf).getD (k + 1) ⟨0, 0, 0, 1, 1, 0, 0⟩).px
              ((defs.map boneStateOf).getD (k + 1) ⟨0, 0, 0, 1, 1, 0, 0⟩).py
              ((defs.map boneStateOf).getD (k + 1) ⟨0, 0, 0, 1, 1, 0, 0⟩).rot
              ((defs.map boneStateOf).getD (k + 1) ⟨0, 0, 0, 1, 1, 0, 0⟩).sx
              ((defs.map boneStateOf).getD (k + 1) ⟨0, 0, 0, 1, 1, 0, 0⟩).sy
              ((defs.map boneStateOf).getD (k + 1) ⟨0, 0, 0, 1, 1, 0, 0⟩).shx
              ((defs.map boneStateOf).getD (k + 1) ⟨0, 0, 0, 1, 1, 0, 0⟩).shy)) := by
      unfold internalPoseBoneState
      dsimp only
      exact internalPoseBone_normal fns defs palK (k + 1) _ _ _ _ _ _ _ hmodeK
    rw [hrw]
    constructor
    · rw [List.length_set, hlen]
    · intro i hik hin
      rcases Nat.lt_or_ge i (k + 1) with hlt | hge
      · rw [getD_set_ne2 _ _ _ _ _ (by omega)]
        exact hfill i (by omega) hin
      · have hieq : i = k + 1 := by omega
        subst hieq
        rw [getD_set_self2 _ _ _ _ (by rw [hlen]; exact hkn)]
        have hp0 : 0 ≤ (defs.getD (k + 1) ⟨-1, 0, 0, 0, 1, 1, 0, 0, 0, .normal⟩).parent :=
          hpar2 (k + 1) (Nat.succ_pos k) hkn
        have hplt : (defs.getD (k + 1) ⟨-1, 0, 0, 0, 1, 1, 0, 0, 0, .normal⟩).parent < ((k + 1 : Nat) : Int) :=
          hpar (k + 1) hkn
        have hptn : (defs.getD (k + 1) ⟨-1, 0, 0, 0, 1, 1, 0, 0, 0, .normal⟩).parent.toNat ≤ k := by
          omega
        have hptn2 : (defs.getD (k + 1) ⟨-1, 0, 0, 0, 1, 1, 0, 0, 0, .normal⟩).parent.toNat < defs.length := by
          omega
        rw [hfill _ hptn hptn2, getD_map_boneStateOf defs (k + 1) hkn]
        have hspec : specRestPose fns defs (k + 1) (k + 1) =
            mulM (specRestPose fns defs k (defs.getD (k + 1) ⟨-1, 0, 0, 0, 1, 1, 0, 0, 0, .normal⟩).parent.toNat)
              (computeWorldTransform fns
                (defs.getD (k + 1) ⟨-1, 0, 0, 0, 1, 1, 0, 0, 0, .normal⟩).px
                (defs.getD (k + 1) ⟨-1, 0, 0, 0, 1, 1, 0, 0, 0, .normal⟩).py
                (defs.getD (k + 1) ⟨-1, 0, 0, 0, 1, 1, 0, 0, 0, .normal⟩).rot
                (defs.getD (k + 1) ⟨-1, 0, 0, 0, 1, 1, 0, 0, 0, .normal⟩).sx
                (defs.getD (k + 1) ⟨-1, 0, 0, 0, 1, 1, 0, 0, 0, .normal⟩).sy
                (defs.getD (k + 1) ⟨-1, 0, 0, 0, 1, 1, 0, 0, 0, .normal⟩).shx
                (defs.getD (k + 1) ⟨-1, 0, 0, 0, 1, 1, 0, 0, 0, .normal⟩).shy) := by
          simp only [specRestPose]
          rw [if_neg (not_lt.mpr hp0)]
        rw [hspec,
            specRestPose_fuel_stable fns defs hpar _ hptn2 k _ hptn (le_refl _)]
        rfl

/-- **C4 (amended).** For a constraint-free definition whose bones all use
the Normal transform mode, whose roots precede their children (every
parent index is below the bone index) and whose only parentless bone is
the root, a newly constructed instance has the identity draw order and a
skinning palette in which every bone matrix equals the recursive
composition of the bone's rest-pose local transform with its parent's
matrix. The unamended claim quantifies over every definition; the
non-Normal transform modes break it (see the counterexample). -/
theorem C4_rest_pose_composition (fns : RealFns) (defs : List BoneDef) (nSlots : Nat)
    (hmode : ∀ i : Nat, i < defs.length →
      (defs.getD i ⟨-1, 0, 0, 0, 1, 1, 0, 0, 0, .normal⟩).mode = TransformMode.normal)
    (hpar : ∀ i : Nat, i < defs.length →
      (defs.getD i ⟨-1, 0, 0, 0, 1, 1, 0, 0, 0, .normal⟩).parent < (i : Int))
    (hpar2 : ∀ i : Nat, 0 < i → i < defs.length →
      0 ≤ (defs.getD i ⟨-1, 0, 0, 0, 1, 1, 0, 0, 0, .normal⟩).parent) :
    (∀ s : Nat, s < nSlots → (instanceConstruct fns defs nSlots).2.getD s 0 = (s : Int)) ∧
    ∀ i : Nat, i < defs.length →
      (instanceConstruct fns defs nSlots).1.getD i idMatrix2x3 = specRestPose fns defs i i := by
  constructor
  · intro s hs
    exact getD_setDefaultDrawOrder nSlots s hs
  · intro i hin
    have hn : 0 < defs.length := lt_of_le_of_lt (Nat.zero_le i) hin
    show (poseSkinningPalette fns defs (defs.map boneStateOf)
      (List.replicate defs.length idMatrix2x3)).getD i idMatrix2x3 = specRestPose fns defs i i
    unfold poseSkinningPalette
    rw [if_neg (by simp only [List.length_replicate]; omega)]
    dsimp only
    exact (poseFold_spec fns defs hmode hpar hpar2 hn (defs.length - 1) (le_refl _)).2
      i (by omega) hin

/-- **C4 counterexample.** A two-bone definition — a root with X scale 2
and a child using the OnlyTranslation transform mode — refutes the
unamended claim: the constructed child matrix keeps the child's own
unscaled rotation-scale block (upper-left entry 1), while the recursive
parent-child composition stated by the spec scales it (upper-left entry
2). The real functions are instantiated exactly at the two angles that
occur, 0 and 90 degrees. -/
theorem C4_rest_pose_composition_counterexample :
    (instanceConstruct exFns
      [⟨-1, 0, 0, 0, 2, 1, 0, 0, 0, .normal⟩, ⟨0, 1, 0, 0, 1, 1, 0, 0, 0, .onlyTranslation⟩] 2).1.getD
        1 idMatrix2x3 ≠
      specRestPose exFns
        [⟨-1, 0, 0, 0, 2, 1, 0, 0, 0, .normal⟩, ⟨0, 1, 0, 0, 1, 1, 0, 0, 0, .onlyTranslation⟩] 1 1 := by
  norm_num [instanceConstruct, poseSkinningPalette, poseTasksBonesOnly, internalPoseBoneState,
    internalPoseBone, boneStateOf, computeWorldTransform, exFns, mulM, createFrom, upper2x2,
    transformPosition, specRestPose, idMatrix2x3, List.range']

/-- Witness for C4: the same two-bone skeleton with the child in Normal
mode satisfies every hypothesis, and the amended theorem applies. -/
theorem C4_rest_pose_composition_witness :
    (∀ s : Nat, s < 2 →
      (instanceConstruct exFns
        [⟨-1, 0, 0, 0, 2, 1, 0, 0, 0, .normal⟩, ⟨0, 1, 0, 0, 1, 1, 0, 0, 0, .normal⟩] 2).2.getD s 0
        = (s : Int)) ∧
    ∀ i : Nat, i < ([⟨-1, 0, 0, 0, 2, 1, 0, 0, 0, .normal⟩,
        ⟨0, 1, 0, 0, 1, 1, 0, 0, 0, .normal⟩] : List BoneDef).length →
      (instanceConstruct exFns
        [⟨-1, 0, 0, 0, 2, 1, 0, 0, 0, .normal⟩, ⟨0, 1, 0, 0, 1, 1, 0, 0, 0, .normal⟩] 2).1.getD
          i idMatrix2x3 =
        specRestPose exFns
          [⟨-1, 0, 0, 0, 2, 1, 0, 0, 0, .normal⟩, ⟨0, 1, 0, 0, 1, 1, 0, 0, 0, .normal⟩] i i :=
  C4_rest_pose_composition exFns
    [⟨-1, 0, 0, 0, 2, 1, 0, 0, 0, .normal⟩, ⟨0, 1, 0, 0, 1, 1, 0, 0, 0, .normal⟩] 2
    (by decide) (by decide) (by
      intro i h1 h2
      simp only [List.length_cons, List.length_nil] at h2
      have hi1 : i = 1 := by omega
      subst hi1
      decide)


/-
  ---------------------------------------------------------------------------
  C6: epsilon guards at the IK inversion sites.
  ---------------------------------------------------------------------------
-/

/-- **C6 (amended).** The two-bone solve guards its parent-matrix
inversion: `ik2InverseDet` always yields a finite value, and whenever the
determinant is within the 1e-5 epsilon the result degrades to the
documented fallback 0. The one-bone solve does not: for the default
(Normal) transform mode, a parent matrix with exactly zero determinant
sends `ik1LocalTarget` through an unguarded division (`none`). The
unamended claim asserts the epsilon guard for both solves. -/
theorem C6_ik_epsilon_guard :
    (∀ mPP : Matrix2x3, (ik2InverseDet mPP).isSome = true) ∧
    (∀ mPP : Matrix2x3,
      isZeroQ (det2 (upper2x2 mPP)) (1 / 100000) = true → ik2InverseDet mPP = some 0) ∧
    (∀ (mPP : Matrix2x3) (target : ℚ × ℚ) (px py : ℚ),
      det2 (upper2x2 mPP) = 0 →
        ik1LocalTarget TransformMode.normal mPP target px py = none) := by
  refine ⟨?_, ?_, ?_⟩
  · intro mPP
    unfold ik2InverseDet
    dsimp only
    by_cases hz : isZeroQ (mPP.M00 * mPP.M11 - mPP.M01 * mPP.M10) (1 / 100000) = true
    · rw [if_pos hz]
      rfl
    · rw [if_neg hz]
      have hne : mPP.M00 * mPP.M11 - mPP.M01 * mPP.M10 ≠ 0 := by
        intro h0
        apply hz
        unfold isZeroQ
        rw [h0]
        norm_num
      unfold divQ?
      rw [if_neg hne]
      rfl
  · intro mPP hz
    have hz2 : isZeroQ (mPP.M00 * mPP.M11 - mPP.M01 * mPP.M10) (1 / 100000) = true := hz
    unfold ik2InverseDet
    dsimp only
    rw [if_pos hz2]
  · intro mPP target px py hdet
    have hdet2 : mPP.M00 * mPP.M11 - mPP.M01 * mPP.M10 = 0 := hdet
    unfold ik1LocalTarget
    dsimp only
    rw [hdet2]
    unfold divQ?
    rw [if_pos rfl]

/-- **C6 counterexample.** The degenerate parent matrix with upper block
`[[1, 0], [0, 0]]` (determinant exactly 0) refutes the unamended claim:
the one-bone solve's Normal-mode inversion divides by the raw zero
determinant (no epsilon fallback), while the two-bone solve's guarded
site degrades to 0 on the same matrix. -/
theorem C6_ik_epsilon_guard_counterexample :
    ik1LocalTarget TransformMode.normal ⟨1, 0, 0, 0, 0, 0⟩ (0, 0) 0 0 = none ∧
    ik2InverseDet ⟨1, 0, 0, 0, 0, 0⟩ = some 0 := by
  constructor
  · norm_num [ik1LocalTarget, divQ?]
  · norm_num [ik2InverseDet, isZeroQ, divQ?]

/-- Witness for C6: the amended theorem applied at the degenerate matrix
and at a concrete guarded call. -/
theorem C6_ik_epsilon_guard_witness :
    (ik2InverseDet ⟨1, 0, 0, 0, 0, 0⟩).isSome = true ∧
    ik1LocalTarget TransformMode.normal ⟨1, 0, 0, 0, 0, 0⟩ (2, 3) 0 0 = none :=
  ⟨C6_ik_epsilon_guard.1 ⟨1, 0, 0, 0, 0, 0⟩,
   C6_ik_epsilon_guard.2.2 ⟨1, 0, 0, 0, 0, 0⟩ (2, 3) 0 0 (by norm_num [det2, upper2x2])⟩


/-
  ---------------------------------------------------------------------------
  C7: deform reference counts versus deform buffers.
  ---------------------------------------------------------------------------
-/

theorem deformStep_inv (s : DeformState)
    (hinv : ∀ k : Int, s.bufs k = true → 1 ≤ s.refs k) (op : DeformOp)
    (hok : deformOpOk s op = true) :
    ∀ k : Int, (deformStep s op).bufs k = true → 1 ≤ (deformStep s op).refs k := by
  intro k hbuf
  cases op with
  | ctor j =>
    simp only [deformStep] at hbuf ⊢
    by_cases hkj : k = j
    · rw [if_pos hkj]
      have := hinv k hbuf
      omega
    · rw [if_neg hkj]
      exact hinv k hbuf
  | dtor j =>
    simp only [deformStep] at hbuf ⊢
    by_cases hz : s.refs j - 1 = 0
    · rw [if_pos hz] at hbuf ⊢
      dsimp only at hbuf ⊢
      by_cases hkj : k = j
      · rw [if_pos hkj] at hbuf
        exact absurd hbuf (by simp)
      · rw [if_neg hkj] at hbuf ⊢
        exact hinv k hbuf
    · rw [if_neg hz] at hbuf ⊢
      dsimp only at hbuf ⊢
      by_cases hkj : k = j
      · rw [if_pos hkj]
        subst hkj
        omega
      · rw [if_neg hkj]
        exact hinv k hbuf
  | evaluate j beforeFront =>
    simp only [deformOpOk, decide_eq_true_eq] at hok
    cases beforeFront with
    | true =>
      simp only [deformStep, if_pos] at hbuf ⊢
      by_cases h1 : s.refs j = 1
      · rw [if_pos h1] at hbuf ⊢
        dsimp only at hbuf ⊢
        by_cases hkj : k = j
        · rw [if_pos hkj] at hbuf
          exact absurd hbuf (by simp)
        · rw [if_neg hkj] at hbuf
          exact hinv k hbuf
      · rw [if_neg h1] at hbuf ⊢
        exact hinv k hbuf
    | false =>
      simp only [deformStep, Bool.false_eq_true, if_neg, not_false_eq_true] at hbuf ⊢
      by_cases hkj : k = j
      · subst hkj
        exact hok
      · rw [if_neg hkj] at hbuf
        exact hinv k hbuf

theorem deformRun_inv (ops : List DeformOp) :
    ∀ s : DeformState, (∀ k : Int, s.bufs k = true → 1 ≤ s.refs k) →
      deformTraceOk s ops = true →
      ∀ k : Int, (deformRun s ops).bufs k = true → 1 ≤ (deformRun s ops).refs k := by
  induction ops with
  | nil =>
    intro s hinv _ k hbuf
    exact hinv k hbuf
  | cons op rest ih =>
    intro s hinv hok k hbuf
    simp only [deformTraceOk, Bool.and_eq_true] at hok
    exact ih (deformStep s op) (deformStep_inv s hinv op hok.1) hok.2 k hbuf

/-- **C7 (amended).** Along every valid clone-free operation sequence from
a freshly constructed instance, a present deform buffer implies at least
one registered evaluator for its key (buffers are created lazily by
`Evaluate` and deleted when the last evaluator is retired); and `Clone`
copies the buffers while resetting every reference count to zero. The
unamended if-and-only-if is refuted in both directions by the
counterexample. -/
theorem C7_deform_refcount (ops : List DeformOp)
    (hvalid : deformTraceOk deformInit ops = true) :
    (∀ k : Int, (deformRun deformInit ops).bufs k = true →
      1 ≤ (deformRun deformInit ops).refs k) ∧
    ∀ k : Int, (deformClone (deformRun deformInit ops)).refs k = 0 ∧
      (deformClone (deformRun deformInit ops)).bufs k = (deformRun deformInit ops).bufs k := by
  constructor
  · exact deformRun_inv ops deformInit (fun k h => by simp [deformInit] at h) hvalid
  · intro k
    exact ⟨rfl, rfl⟩

/-- **C7 counterexample.** The zero-count-iff-no-buffer claim fails in
both directions: after constructing a single deform evaluator (and before
any `Evaluate` call) the key's count is 1 with no buffer, and after
cloning an instance that holds a buffer the clone keeps the buffer with
every count zero. -/
theorem C7_deform_refcount_counterexample :
    ((deformRun deformInit [DeformOp.ctor 0]).refs 0 = 1 ∧
      (deformRun deformInit [DeformOp.ctor 0]).bufs 0 = false) ∧
    ((deformClone ⟨fun _ => 1, fun _ => true⟩).refs 0 = 0 ∧
      (deformClone ⟨fun _ => 1, fun _ => true⟩).bufs 0 = true) := by
  refine ⟨⟨?_, rfl⟩, rfl, rfl⟩
  decide

/-- Witness for C7: a construct-then-evaluate trace is valid and the
amended theorem applies to it. -/
theorem C7_deform_refcount_witness :
    deformTraceOk deformInit [DeformOp.ctor 0, DeformOp.evaluate 0 false] = true ∧
    ((deformRun deformInit [DeformOp.ctor 0, DeformOp.evaluate 0 false]).bufs 0 = true →
      1 ≤ (deformRun deformInit [DeformOp.ctor 0, DeformOp.evaluate 0 false]).refs 0) :=
  ⟨by decide,
   (C7_deform_refcount [DeformOp.ctor 0, DeformOp.evaluate 0 false] (by decide)).1 0⟩


/-
  ---------------------------------------------------------------------------
  C9: missing bones in clips versus missing constraint targets.
  ---------------------------------------------------------------------------
-/

theorem lookupIndex_nonneg_iff (ids : List String) (id : String) :
    0 ≤ lookupIndex ids id ↔ id ∈ ids := by
  induction ids with
  | nil => simp [lookupIndex]
  | cons x rest ih =>
    simp only [lookupIndex, List.mem_cons]
    by_cases hx : x = id
    · rw [if_pos hx]
      simp [hx]
    · rw [if_neg hx]
      by_cases hr : lookupIndex rest id < 0
      · rw [if_pos hr]
        constructor
        · intro h; omega
        · intro h
          rcases h with h | h
          · exact absurd h.symm hx
          · exact absurd (ih.mpr h) (by omega)
      · rw [if_neg hr]
        constructor
        · intro _
          exact Or.inr (ih.mp (by omega))
        · intro _
          omega

theorem construct_skips_missing (boneIds : List String)
    (clip : List (String × BoneTimelines)) :
    constructBoneEvaluators boneIds clip =
      constructBoneEvaluators boneIds
        (clip.filter (fun e => decide (0 ≤ lookupIndex boneIds e.1))) := by
  induction clip with
  | nil => rfl
  | cons e rest ih =>
    by_cases h : lookupIndex boneIds e.1 < 0
    · rw [List.filter_cons_of_neg (by simpa using h)]
      simp only [constructBoneEvaluators, if_pos h]
      exact ih
    · rw [List.filter_cons_of_pos (by simpa using not_lt.mp h)]
      simp only [constructBoneEvaluators, if_neg h]
      rw [ih]

theorem construct_nonneg (boneIds : List String)
    (clip : List (String × BoneTimelines)) :
    ∀ r ∈ constructBoneEvaluators boneIds clip, 0 ≤ r.iBone := by
  induction clip with
  | nil => intro r hr; exact absurd hr (List.not_mem_nil r)
  | cons e rest ih =>
    intro r hr
    by_cases h : lookupIndex boneIds e.1 < 0
    · rw [constructBoneEvaluators, if_pos h] at hr
      exact ih r hr
    · rw [constructBoneEvaluators, if_neg h] at hr
      rcases List.mem_append.mp hr with hm | hm
      · have : r.iBone = lookupIndex boneIds e.1 := by
          unfold boneEvalRecords at hm
          rcases List.mem_append.mp hm with hm2 | hm2
          · rcases List.mem_append.mp hm2 with hm3 | hm3
            · rcases List.mem_append.mp hm3 with hm4 | hm4 <;>
                [skip; skip] <;>
              · split at hm4
                · exact absurd hm4 (List.not_mem_nil r)
                · rw [List.mem_singleton.mp hm4]
            · split at hm3
              · exact absurd hm3 (List.not_mem_nil r)
              · rw [List.mem_singleton.mp hm3]
          · split at hm2
            · exact absurd hm2 (List.not_mem_nil r)
            · rw [List.mem_singleton.mp hm2]
        omega
      · exact ih r hm

/-- **C9.** Clip bone-timeline entries whose bone id is absent from the
definition are silently skipped: evaluator construction equals
construction over only the resolvable entries, and every constructed
evaluator carries a resolved (nonnegative) bone index. A missing
constraint target instead fails finalization: FinalizeIk,
FinalizePaths and FinalizeTransforms return false whenever any
constraint's target id does not resolve. -/
theorem C9_missing_id_handling (boneIds slotIds : List String)
    (clip : List (String × BoneTimelines))
    (iks paths ts : List ConstraintDef) :
    (constructBoneEvaluators boneIds clip =
      constructBoneEvaluators boneIds
        (clip.filter (fun e => decide (0 ≤ lookupIndex boneIds e.1))) ∧
     ∀ r ∈ constructBoneEvaluators boneIds clip, 0 ≤ r.iBone) ∧
    ((∃ c ∈ iks, c.targetId ∉ boneIds) → finalizeIk boneIds iks = false) ∧
    ((∃ c ∈ paths, c.targetId ∉ slotIds) → finalizePaths boneIds slotIds paths = false) ∧
    ((∃ c ∈ ts, c.targetId ∉ boneIds) → finalizeTransforms boneIds ts = false) := by
  refine ⟨⟨construct_skips_missing boneIds clip, construct_nonneg boneIds clip⟩, ?_, ?_, ?_⟩
  · rintro ⟨c, hc, habs⟩
    have h : lookupIndex boneIds c.targetId < 0 := by
      have := (lookupIndex_nonneg_iff boneIds c.targetId).not.mpr habs
      omega
    unfold finalizeIk
    rw [List.all_eq_false]
    refine ⟨c, hc, ?_⟩
    simp only [Bool.and_eq_true, decide_eq_true_eq, not_and]
    intro h1
    exact absurd h1.1 (by omega)
  · rintro ⟨c, hc, habs⟩
    have h : lookupIndex slotIds c.targetId < 0 := by
      have := (lookupIndex_nonneg_iff slotIds c.targetId).not.mpr habs
      omega
    unfold finalizePaths
    rw [List.all_eq_false]
    refine ⟨c, hc, ?_⟩
    simp only [Bool.and_eq_true, decide_eq_true_eq, not_and]
    intro h1
    exact absurd h1.1 (by omega)
  · rintro ⟨c, hc, habs⟩
    have h : lookupIndex boneIds c.targetId < 0 := by
      have := (lookupIndex_nonneg_iff boneIds c.targetId).not.mpr habs
      omega
    unfold finalizeTransforms
    rw [List.all_eq_false]
    refine ⟨c, hc, ?_⟩
    simp only [Bool.and_eq_true, decide_eq_true_eq, not_and]
    intro h1
    exact absurd h1.1 (by omega)

/-- Witness for C9: a clip with one resolvable and one unresolvable bone
entry, and one IK, path and transform constraint each with a missing
target, at concrete values. -/
theorem C9_missing_id_handling_witness :
    (constructBoneEvaluators ["root"]
        [("root", ⟨[0], [], [], []⟩), ("ghost", ⟨[0], [], [], []⟩)] =
      constructBoneEvaluators ["root"]
        ([("root", ⟨[0], [], [], []⟩), ("ghost", ⟨[0], [], [], []⟩)].filter
          (fun e => decide (0 ≤ lookupIndex ["root"] e.1))) ∧
     ∀ r ∈ constructBoneEvaluators ["root"]
        [("root", ⟨[0], [], [], []⟩), ("ghost", ⟨[0], [], [], []⟩)], 0 ≤ r.iBone) ∧
    finalizeIk ["root"] [⟨"missing", ["root"]⟩] = false ∧
    finalizePaths ["root"] ["slotA"] [⟨"missing", ["root"]⟩] = false ∧
    finalizeTransforms ["root"] [⟨"missing", ["root"]⟩] = false := by
  obtain ⟨h1, h2, h3, h4⟩ := C9_missing_id_handling ["root"] ["slotA"]
    [("root", ⟨[0], [], [], []⟩), ("ghost", ⟨[0], [], [], []⟩)]
    [⟨"missing", ["root"]⟩] [⟨"missing", ["root"]⟩] [⟨"missing", ["root"]⟩]
  exact ⟨h1, h2 ⟨⟨"missing", ["root"]⟩, by decide, by decide⟩,
    h3 ⟨⟨"missing", ["root"]⟩, by decide, by decide⟩,
    h4 ⟨⟨"missing", ["root"]⟩, by decide, by decide⟩⟩


/-
  ---------------------------------------------------------------------------
  C10: editor-time quantization at the clip entry points.
  ---------------------------------------------------------------------------
-/

/-- **C10.** Every time value entering `ClipInstance::Evaluate`,
`EvaluateRange` or `GetNextEventTime` is first quantized by
`ToEditorTime` to an integer multiple of 1/10000 of a second, moving it
by at most 1/20000; consequently any two input times whose scaled values
round alike produce identical behavior at all three entry points. The
spec does not state this quantization at the public interface. -/
theorem C10_time_quantization :
    (∀ t : ℚ, (∃ n : ℤ, toEditorTime t = (n : ℚ) / 10000) ∧
      |toEditorTime t - t| ≤ 1 / 20000) ∧
    ∀ t u : ℚ, round (t * 10000) = round (u * 10000) →
      (∀ (α : Type) (evaluatorPass : ℚ → ℚ → Bool → α) (w : ℚ) (b : Bool),
        clipEvaluate evaluatorPass t w b = clipEvaluate evaluatorPass u w b) ∧
      (∀ (events : List EventKF) (threshold t1 w : ℚ),
        clipEvaluateRange events threshold t t1 w =
          clipEvaluateRange events threshold u t1 w) ∧
      (∀ (events : List EventKF) (name : String),
        clipGetNextEventTime events name t = clipGetNextEventTime events name u) := by
  constructor
  · intro t
    constructor
    · exact ⟨round (t * 10000), rfl⟩
    · have h := abs_sub_round (t * 10000)
      have heq : toEditorTime t - t = ((round (t * 10000) : ℚ) - t * 10000) / 10000 := by
        unfold toEditorTime
        ring
      rw [heq, abs_div]
      rw [abs_of_pos (by norm_num : (0 : ℚ) < 10000)]
      rw [div_le_iff₀ (by norm_num : (0 : ℚ) < 10000)]
      rw [abs_sub_comm]
      calc |t * 10000 - (round (t * 10000) : ℚ)| ≤ 1 / 2 := h
        _ ≤ 1 / 20000 * 10000 := by norm_num
  · intro t u hr
    have hte : toEditorTime t = toEditorTime u := by
      unfold toEditorTime
      rw [hr]
    exact ⟨fun α p w b => by unfold clipEvaluate; rw [hte],
      fun ev th t1 w => by unfold clipEvaluateRange; rw [hte],
      fun ev nm => by unfold clipGetNextEventTime; rw [hte]⟩

/-- Witness for C10: 1/30000 and 0 scale to values that round alike, so
`GetNextEventTime` behaves identically on them. -/
theorem C10_time_quantization_witness :
    round ((1 / 30000 : ℚ) * 10000) = round ((0 : ℚ) * 10000) ∧
    clipGetNextEventTime [⟨1, "hit", 0, 0, ""⟩] "hit" (1 / 30000) =
      clipGetNextEventTime [⟨1, "hit", 0, 0, ""⟩] "hit" 0 :=
  ⟨by norm_num [round_eq],
   ((C10_time_quantization.2 (1 / 30000) 0 (by norm_num [round_eq])).2.2
     [⟨1, "hit", 0, 0, ""⟩] "hit")⟩

end Anim2D
